import Mathlib

/-!
Package vtag: resolving tagged struct fields to external names.

A shallow embedding of `tag.go` (package `vtag`).

Conventions of the embedding.

* A Go `string` is a byte sequence.  It is represented by a Lean `String` in which every
  `Char` stands for one byte, so indexing (`name[0]`), concatenation, comparison,
  `strings.Split` on `","` and `strings.Join` are byte-exact.
* The library functions `strings.ToUpper` and `strings.ToLower` are parameters
  (`StringsCase`); where their value matters, only their behaviour on ASCII strings is
  assumed (`StringsCase.onASCII`).
* A `reflect.Type` is a finite tree (`GoType`): every type carries `PkgPath()` and `Name()`,
  pointer types carry their element type and struct types their fields.  A record type that
  contains itself through a pointer is no finite tree and is outside the embedding (the
  source need not terminate on it); on finite trees every function below is total.
* A `reflect.StructTag` is represented by the key/value pairs it holds, in order.
* A `*sync.Map` is an address into `World.maps`; `World` also holds the package variable
  `defaultEncoder` (with the `once` guard folded into it).
* A run-time panic (index out of range on an empty name, or a panicking encoder) is `none`.
-/

set_option autoImplicit false

namespace vtag

/-! ## Types of package `reflect` -/

/-- The kinds of `reflect.Kind` other than `Ptr` and `Struct`. -/
inductive BasicKind
  | Bool | Int | Int8 | Int16 | Int32 | Int64
  | Uint | Uint8 | Uint16 | Uint32 | Uint64 | Uintptr
  | Float32 | Float64 | Complex64 | Complex128
  | Array | Chan | Func | Interface | Map | Slice | String | UnsafePointer
  deriving DecidableEq, Repr

/-- The value of `reflect.Kind`. -/
inductive Kind
  | Ptr
  | Struct
  | basic (k : BasicKind)
  deriving DecidableEq, Repr

/-- The text of `BasicKind`, as printed by `reflect.Kind.String`. -/
def basicKindString : BasicKind → String
  | .Bool => "bool" | .Int => "int" | .Int8 => "int8" | .Int16 => "int16"
  | .Int32 => "int32" | .Int64 => "int64" | .Uint => "uint" | .Uint8 => "uint8"
  | .Uint16 => "uint16" | .Uint32 => "uint32" | .Uint64 => "uint64"
  | .Uintptr => "uintptr" | .Float32 => "float32" | .Float64 => "float64"
  | .Complex64 => "complex64" | .Complex128 => "complex128" | .Array => "array"
  | .Chan => "chan" | .Func => "func" | .Interface => "interface" | .Map => "map"
  | .Slice => "slice" | .String => "string" | .UnsafePointer => "unsafe.Pointer"

/-- The text of a kind, as printed by `reflect.Kind.String`. -/
def kindString : Kind → String
  | .Ptr => "ptr"
  | .Struct => "struct"
  | .basic k => basicKindString k

/-- The key/value pairs of a `reflect.StructTag`, in the order they are written. -/
abbrev StructTag := List (String × String)

/-- Go `reflect.StructTag.Get`: the value of the first pair with this key, else `""`. -/
def StructTag.Get (tag : StructTag) (key : String) : String :=
  match tag with
  | [] => ""
  | (k, v) :: rest => if k = key then v else StructTag.Get rest key

mutual
/-- A `reflect.Type`: `basic` is any type that is neither a pointer nor a struct. -/
inductive GoType
  | basic (pkgPath name : String) (kind : BasicKind)
  | ptr (pkgPath name : String) (elem : GoType)
  | struct (pkgPath name : String) (fields : List StructField)
/-- A `reflect.StructField`. -/
inductive StructField
  | mk (Name : String) (Anonymous : Bool) (Tag : StructTag) (Typ : GoType)
end

/-- Go `reflect.Type.PkgPath`. -/
def GoType.PkgPath : GoType → String
  | .basic p _ _ => p
  | .ptr p _ _ => p
  | .struct p _ _ => p

/-- Go `reflect.Type.Name`. -/
def GoType.Name : GoType → String
  | .basic _ n _ => n
  | .ptr _ n _ => n
  | .struct _ n _ => n

/-- Go `reflect.Type.Kind`. -/
def GoType.Kind : GoType → Kind
  | .basic _ _ k => .basic k
  | .ptr _ _ _ => .Ptr
  | .struct _ _ _ => .Struct

/-! ## Strings -/

/-- The pieces of a byte list between occurrences of the separator byte. -/
def splitBytes (sep : Char) : List Char → List (List Char)
  | [] => [[]]
  | c :: cs =>
    if c = sep then [] :: splitBytes sep cs
    else
      match splitBytes sep cs with
      | [] => [[c]]
      | piece :: pieces => (c :: piece) :: pieces

/-- Go `strings.Split` for a separator of one byte: never empty, `Split("", sep) = [""]`. -/
def strings.Split (s : String) (sep : Char) : List String :=
  (splitBytes sep s.data).map String.mk

/-- Go `strings.Join`. -/
def strings.Join : List String → String → String
  | [], _ => ""
  | [a], _ => a
  | a :: b :: rest, sep => a ++ sep ++ strings.Join (b :: rest) sep

/-- Source `isLowerByte`. -/
def isLowerByte (b : Char) : Bool :=
  'a'.toNat ≤ b.toNat && b.toNat ≤ 'z'.toNat

/-- Source `isUpperByte`. -/
def isUpperByte (b : Char) : Bool :=
  'A'.toNat ≤ b.toNat && b.toNat ≤ 'Z'.toNat

/-- Source `lowerByte`: `b - 'A' + 'a'` for an upper-case letter (no wrap-around there). -/
def lowerByte (b : Char) : Char :=
  if 'A'.toNat ≤ b.toNat && b.toNat ≤ 'Z'.toNat then Char.ofNat (b.toNat - 'A'.toNat + 'a'.toNat)
  else b

/-- The upper-case form of a byte: `b - 'a' + 'A'` for a lower-case letter. -/
def upperByte (b : Char) : Char :=
  if 'a'.toNat ≤ b.toNat && b.toNat ≤ 'z'.toNat then Char.ofNat (b.toNat - 'a'.toNat + 'A'.toNat)
  else b

/-- The functions `ToUpper` and `ToLower` of Go's package `strings`. `tag.go` calls them
and does not define them, and they depend on the Unicode tables of the library, so they
are parameters of the embedding: every statement about `UpperEncodeFunc` and
`LowerEncodeFunc` is made for an arbitrary pair of such functions. -/
structure StringsCase where
  ToUpper : String → String
  ToLower : String → String

/-- Whether every byte of the string is below `utf8.RuneSelf` (128). -/
def isASCII (s : String) : Bool :=
  s.data.all (fun c => decide (c.toNat < 128))

/-- What is assumed of the library where a statement needs it: on a string of ASCII bytes
`strings.ToUpper` replaces each byte `a`-`z` by `A`-`Z`, `strings.ToLower` each byte
`A`-`Z` by `a`-`z`, and neither changes anything else (the ASCII path of both Go
functions). Nothing is assumed on other strings. -/
def StringsCase.onASCII (lib : StringsCase) : Prop :=
  ∀ s : String, isASCII s = true →
    lib.ToUpper s = String.mk (s.data.map upperByte) ∧
    lib.ToLower s = String.mk (s.data.map lowerByte)

/-- The byte-wise maps: a pair of functions that meets `StringsCase.onASCII`. It stands
for Go's functions on ASCII strings only and serves as the concrete instance of the
parameter. -/
def asciiCase : StringsCase :=
  { ToUpper := fun s => String.mk (s.data.map upperByte),
    ToLower := fun s => String.mk (s.data.map lowerByte) }

/-! ## `tag.go` -/

/-- Source `sliceContains`. -/
def sliceContains : List String → String → Bool
  | [], _ => false
  | v :: ss, s => if v = s then true else sliceContains ss s

/-- Source `sliceHasIntersection`. -/
def sliceHasIntersection : List String → List String → Bool
  | [], _ => false
  | t :: s1, s2 => if sliceContains s2 t then true else sliceHasIntersection s1 s2

/-- Source `EncoderFunc`; `none` is a panic of the function. -/
abbrev EncoderFunc := StructTag → String → String → Option String

/-- The state of the loop of `Snake2UnderScoreCase`: `last`, `lastWrite` and `buf`. -/
structure SnakeState where
  last : Char
  lastWrite : Char
  buf : List Char

/-- One iteration of the loop of `Snake2UnderScoreCase`, at index `idx` and byte `v`. -/
def snakeStep (st : SnakeState) (idx : Nat) (v : Char) : SnakeState :=
  if idx = 0 then { st with last := v }
  else
    let buf1 :=
      if isLowerByte v && (isUpperByte st.last && idx != 1 && st.lastWrite != '_')
      then st.buf ++ ['_'] else st.buf
    let buf2 := buf1 ++ [lowerByte st.last]
    if isLowerByte st.last && isUpperByte v
    then { last := v, lastWrite := '_', buf := buf2 ++ ['_'] }
    else { last := v, lastWrite := st.last, buf := buf2 }

/-- The loop of `Snake2UnderScoreCase` over the remaining bytes, from index `idx`. -/
def snakeLoop : List Char → Nat → SnakeState → SnakeState
  | [], _, st => st
  | v :: rest, idx, st => snakeLoop rest (idx + 1) (snakeStep st idx v)

/-- Source `Snake2UnderScoreCase`; `last` and `lastWrite` start as the zero byte. -/
def Snake2UnderScoreCase (snake : String) : String :=
  let st := snakeLoop snake.data 0 { last := Char.ofNat 0, lastWrite := Char.ofNat 0, buf := [] }
  ⟨st.buf ++ [lowerByte st.last]⟩

/-- Source `UpperEncodeFunc`, for the library functions `lib`. -/
def UpperEncodeFunc (lib : StringsCase) : EncoderFunc := fun _field pre name =>
  if pre ≠ "" then some (pre ++ "." ++ lib.ToUpper name)
  else some (lib.ToUpper name)

/-- Source `LowerEncodeFunc`, for the library functions `lib`. -/
def LowerEncodeFunc (lib : StringsCase) : EncoderFunc := fun _field pre name =>
  if pre ≠ "" then some (pre ++ "." ++ lib.ToLower name)
  else some (lib.ToLower name)

/-- Source `CamelCaseEncodeFunc`; `name[0]` panics on the empty name. -/
def CamelCaseEncodeFunc : EncoderFunc := fun _field pre name =>
  match name.data with
  | [] => none
  | c :: cs =>
    let name1 : String :=
      if 'A'.toNat ≤ c.toNat && c.toNat ≤ 'Z'.toNat
      then ⟨[Char.ofNat (c.toNat - 'A'.toNat + 'a'.toNat)]⟩ ++ ⟨cs⟩
      else name
    if pre ≠ "" then some (pre ++ "." ++ name1)
    else some name1

/-- Source `UnderScoreCaseEncodeFunc`. -/
def UnderScoreCaseEncodeFunc : EncoderFunc := fun _field pre name =>
  if pre ≠ "" then some (pre ++ "." ++ Snake2UnderScoreCase name)
  else some (Snake2UnderScoreCase name)

/-- The struct `encode`; `cache` is the address of its `sync.Map`, `none` for `nil`. -/
structure encode where
  tag : String
  encoder : Option EncoderFunc
  cache : Option Nat

/-- The mutable state of the process: the allocated `sync.Map`s, each a list of entries
with the latest `Store` first, and the package variable `defaultEncoder`, which is
`none` until `once` has fired. -/
structure World where
  maps : List (List (String × List String))
  defaultEncoder : Option encode

/-- The state of a process that has not used the package yet. -/
def World.init : World :=
  { maps := [], defaultEncoder := none }

/-- Source `NewEncoder`. -/
def NewEncoder (tag : String) (enc : Option EncoderFunc) (cache : Bool) (w : World) :
    encode × World :=
  let tag1 := if tag = "" then "vtag" else tag
  if cache then
    ({ tag := tag1, encoder := enc, cache := some w.maps.length },
     { w with maps := w.maps ++ [[]] })
  else ({ tag := tag1, encoder := enc, cache := none }, w)

/-- Source `InitEncoder`. -/
def InitEncoder (enc : Option EncoderFunc) (w : World) : World :=
  match w.defaultEncoder with
  | some _ => w
  | none =>
    let r := NewEncoder "" enc true w
    { r.2 with defaultEncoder := some r.1 }

/-- Source `getDefaultEncoder`. -/
def getDefaultEncoder (w : World) : encode × World :=
  match w.defaultEncoder with
  | some d => (d, w)
  | none =>
    let r := NewEncoder "" none true w
    (r.1, { r.2 with defaultEncoder := some r.1 })

/-- The `cacheKey` of `encode.SliceWithTag` (lines 169-171): `""` without a cache. -/
def encode.cacheKey (e : encode) (typ : GoType) (tags : List String) : String :=
  match e.cache with
  | none => ""
  | some _ => typ.PkgPath ++ typ.Name ++ strings.Join tags ""

/-- The cache lookup of `encode.SliceWithTag` (lines 170-178). -/
def encode.Load (e : encode) (w : World) (cacheKey : String) : Option (List String) :=
  match e.cache with
  | none => none
  | some a => if cacheKey ≠ "" then (w.maps.getD a []).lookup cacheKey else none

/-- The cache store of `encode.SliceWithTag` (lines 236-240). -/
def encode.Store (e : encode) (w : World) (cacheKey : String) (names : List String) : World :=
  match e.cache with
  | none => w
  | some a =>
    if cacheKey ≠ "" then { w with maps := w.maps.set a ((cacheKey, names) :: w.maps.getD a []) }
    else w

/-- The error of line 185. -/
def notSupport (k : Kind) : String :=
  "type: " ++ kindString k ++ ", not support"

/-- The external name of a field that passed the label check (lines 207-220):
`none` is a panic of the encoder, `some none` is `continue`. -/
def encode.fieldName (e : encode) (ts0 : String) (tag : StructTag) (pre name : String) :
    Option (Option String) :=
  if ts0 ≠ "" then
    if pre ≠ "" then some (some (pre ++ "." ++ ts0)) else some (some ts0)
  else
    match e.encoder with
    | some enc =>
      match enc tag pre name with
      | none => none
      | some key => if key = "" then some none else some (some key)
    | none => if pre ≠ "" then some (some (pre ++ "." ++ name)) else some (some name)

mutual
/-- The method `encode.SliceWithTag`, on the type of `obj`; the result is the pair
`(names, err)` and the new state, `none` for a panic. -/
def encode.SliceWithTag (e : encode) (w : World) :
    GoType → String → List String → Option ((List String × Option String) × World)
  | typ, pre, tags =>
    match e.Load w (e.cacheKey typ tags) with
    | some names => some ((names, none), w)
    | none =>
      match typ with
      | .ptr _ _ (.struct _ _ fields) =>
        match encode.fieldLoop e w fields pre tags [] with
        | none => none
        | some (names, w1) => some ((names, none), e.Store w1 (e.cacheKey typ tags) names)
      | .struct _ _ fields =>
        match encode.fieldLoop e w fields pre tags [] with
        | none => none
        | some (names, w1) => some ((names, none), e.Store w1 (e.cacheKey typ tags) names)
      | .ptr _ _ elem => some (([], some (notSupport elem.Kind)), w)
      | .basic _ _ k => some (([], some (notSupport (.basic k))), w)
/-- The loop over the fields (lines 188-235); `names` is the list built so far. -/
def encode.fieldLoop (e : encode) (w : World) :
    List StructField → String → List String → List String → Option (List String × World)
  | [], _, _, names => some (names, w)
  | .mk fname anonymous ftag ftype :: rest, pre, tags, names =>
    if anonymous then
      match encode.SliceWithTag e w ftype pre tags with
      | none => none
      | some ((m, _), w1) => encode.fieldLoop e w1 rest pre tags (names ++ m)
    else
      match fname.data with
      | [] => none
      | c :: _ =>
        if c.toNat < 'A'.toNat || c.toNat > 'Z'.toNat then encode.fieldLoop e w rest pre tags names
        else
          let ts := strings.Split (StructTag.Get ftag e.tag) ','
          if ts.headD "" = "-" then encode.fieldLoop e w rest pre tags names
          else if !sliceHasIntersection tags ts then encode.fieldLoop e w rest pre tags names
          else
            match e.fieldName (ts.headD "") ftag pre fname with
            | none => none
            | some none => encode.fieldLoop e w rest pre tags names
            | some (some name) =>
              match nestedNames w ftype name tags with
              | none => none
              | some (m, w1) => encode.fieldLoop e w1 rest pre tags (names ++ m)
/-- Lines 222-234 for a field of type `t` and external name `name`: the pointers are
stripped, a struct is resolved by the package-level `SliceWithTag` (on the default
encoder, written out here) and anything else gives the name itself. -/
def nestedNames (w : World) : GoType → String → List String → Option (List String × World)
  | .ptr _ _ elem, name, tags => nestedNames w elem name tags
  | .basic _ _ _, name, _ => some ([name], w)
  | .struct p n fields, name, tags =>
    let d := (getDefaultEncoder w).1
    let w0 := (getDefaultEncoder w).2
    match d.Load w0 (d.cacheKey (.struct p n fields) tags) with
    | some m => some (m, w0)
    | none =>
      match encode.fieldLoop d w0 fields name tags [] with
      | none => none
      | some (m, w1) => some (m, d.Store w1 (d.cacheKey (.struct p n fields) tags) m)
end

/-- The package-level `SliceWithTag`. -/
def SliceWithTag (w : World) (obj : GoType) (pre : String) (tags : List String) :
    Option ((List String × Option String) × World) :=
  (getDefaultEncoder w).1.SliceWithTag (getDefaultEncoder w).2 obj pre tags

/-- The loop of lines 223-225 on its own: the type under all the pointers. -/
def derefAll : GoType → GoType
  | .ptr _ _ elem => derefAll elem
  | .basic p n k => .basic p n k
  | .struct p n fields => .struct p n fields

/-- The test of line 197, negated: the field name starts with an upper-case ASCII letter. -/
def exported (name : String) : Bool :=
  match name.data with
  | [] => false
  | c :: _ => 'A'.toNat ≤ c.toNat && c.toNat ≤ 'Z'.toNat

/-! ## The types of `tag_test.go` -/

/-- The predeclared type `string`. -/
def goString : GoType := .basic "" "string" .String

/-- The predeclared type `int`. -/
def goInt : GoType := .basic "" "int" .Int

/-- The test type `Base`; `pkg` is the import path of the package, the `PkgPath()` of
the types of its test file. -/
def Base (pkg : String) : GoType :=
  .struct pkg "Base" [.mk "HelloWorld" false [("vtag", ",list,detail")] goString]

/-- The test type `Ext`. -/
def Ext (pkg : String) : GoType :=
  .struct pkg "Ext" [.mk "DD" false [("vtag", ",list")] goString]

/-- The test type `Student`; its first field is the embedded `*Base`. -/
def Student (pkg : String) : GoType :=
  .struct pkg "Student"
    [.mk "Base" true [] (.ptr "" "" (Base pkg)),
     .mk "Ext" false [("vtag", ",list")] (Ext pkg),
     .mk "Name" false [("vtag", "name,list,detail")] goString,
     .mk "Age" false [("vtag", "age,list,detail")] goString]

/-- The default configuration that `InitEncoder(UnderScoreCaseEncodeFunc)` builds, with
its cache at address `a`. -/
def underscoreDefault (a : Nat) : encode :=
  { tag := "vtag", encoder := some UnderScoreCaseEncodeFunc, cache := some a }

/-! ## Further record types, used as inputs below (all of a package `main`) -/

/-- Go type: `type Item struct { A string "vtag:\",list\"" }`. -/
def Item : GoType :=
  .struct "main" "Item" [.mk "A" false [("vtag", ",list")] goString]

/-- Go type: `type Other struct { B string "vtag:\",list\"" }`. -/
def Other : GoType :=
  .struct "main" "Other" [.mk "B" false [("vtag", ",list")] goString]

/-- Go type: `type Pair struct { X Item "vtag:\",list\""; Y Item "vtag:\",list\"" }`. -/
def Pair : GoType :=
  .struct "main" "Pair"
    [.mk "X" false [("vtag", ",list")] Item, .mk "Y" false [("vtag", ",list")] Item]

/-- Go type: `type Named struct { Summary string "vtag:\"detail,list\"" }`: the
annotation holds the explicit name `detail` and the one label `list`. -/
def Named : GoType :=
  .struct "main" "Named" [.mk "Summary" false [("vtag", "detail,list")] goString]

/-- Go type: `type Views struct { P string "vtag:\",a\""; Q string "vtag:\",ab\"" }`. -/
def Views : GoType :=
  .struct "main" "Views"
    [.mk "P" false [("vtag", ",a")] goString, .mk "Q" false [("vtag", ",ab")] goString]

/-- Go type: `type JInner struct { A string "json:\",list\"" }`. -/
def JInner : GoType :=
  .struct "main" "JInner" [.mk "A" false [("json", ",list")] goString]

/-- Go type: `type JOuter struct { In JInner "json:\",list\"" }`. -/
def JOuter : GoType :=
  .struct "main" "JOuter" [.mk "In" false [("json", ",list")] JInner]

/-- Go type: `type MyInt int`. -/
def MyInt : GoType := .basic "main" "MyInt" .Int

/-- Go type: `type Mixed struct { *Item; *MyInt }`, two embedded fields. -/
def Mixed : GoType :=
  .struct "main" "Mixed"
    [.mk "Item" true [] (.ptr "" "" Item), .mk "MyInt" true [] (.ptr "" "" MyInt)]

/-- Go type: `type OnlyItem struct { *Item }`: `Mixed` without its second field. -/
def OnlyItem : GoType :=
  .struct "main" "Mixed" [.mk "Item" true [] (.ptr "" "" Item)]

/-- Go type: `type Renamed struct { Field int "vtag:\"myName,list\"" }`: a field with the
explicit name `myName` and the label `list`. -/
def Renamed : GoType :=
  .struct "main" "Renamed" [.mk "Field" false [("vtag", "myName,list")] goInt]

/-- Go type: `type Masked struct { Item "vtag:\"-\"" }`: an embedded field that carries
the exclusion sentinel. -/
def Masked : GoType :=
  .struct "main" "Masked" [.mk "Item" true [("vtag", "-")] Item]

/-! ## Auxiliary definitions: written bytes, operations on the default configuration,
further input types -/

/-- The bytes that `Snake2UnderScoreCase` writes from index `idx` on, when the bytes
still to read are given and `last`, `lastWrite` have the given values (`idx` is not 0). -/
def snakeEmit : List Char → Nat → Char → Char → List Char
  | [], _, last, _ => [lowerByte last]
  | v :: rest, idx, last, lastWrite =>
    if isLowerByte v && (isUpperByte last && idx != 1 && lastWrite != '_') then
      if isLowerByte last && isUpperByte v
      then '_' :: lowerByte last :: '_' :: snakeEmit rest (idx + 1) v '_'
      else '_' :: lowerByte last :: snakeEmit rest (idx + 1) v last
    else
      if isLowerByte last && isUpperByte v
      then lowerByte last :: '_' :: snakeEmit rest (idx + 1) v '_'
      else lowerByte last :: snakeEmit rest (idx + 1) v last

/-- An operation on the default configuration: `InitEncoder(enc)`, or a use of it through
the package-level `SliceWithTag`. -/
inductive DefaultOp
  | initEncoder (enc : Option EncoderFunc)
  | sliceWithTag (obj : GoType) (pre : String) (tags : List String)

/-- The state after one operation, `none` if it panics. -/
def DefaultOp.run (w : World) : DefaultOp → Option World
  | .initEncoder enc => some (InitEncoder enc w)
  | .sliceWithTag obj pre tags => (SliceWithTag w obj pre tags).map (fun r => r.2)

/-- The state after a sequence of operations, `none` if one of them panics. -/
def runOps (w : World) : List DefaultOp → Option World
  | [] => some w
  | op :: ops => (op.run w).bind (fun w1 => runOps w1 ops)

/-- The encoder that the operation gives to a default configuration it constructs. -/
def DefaultOp.encoder : DefaultOp → Option EncoderFunc
  | .initEncoder enc => enc
  | .sliceWithTag _ _ _ => none

/-- Go type of package `example.com/a`: `type BC int`. -/
def CounterBC : GoType := .basic "example.com/a" "BC" .Int

/-- Go type of package `example.com/aB`: `type C struct { F string }`. -/
def RecordC : GoType := .struct "example.com/aB" "C" [.mk "F" false [] goString]

/-- Go type: `type Holder struct { a.BC; aB.C }`, two embedded fields. -/
def Holder : GoType :=
  .struct "main" "Holder" [.mk "BC" true [] CounterBC, .mk "C" true [] RecordC]

/-- An encoder that omits every field whose name starts with `X`. -/
def skipX : EncoderFunc := fun _ pre name =>
  match name.data with
  | 'X' :: _ => some ""
  | _ => if pre ≠ "" then some (pre ++ "." ++ name) else some name

/-! ## General facts about the embedding -/

theorem sliceContains_iff (ss : List String) (s : String) :
    sliceContains ss s = true ↔ s ∈ ss := by
  induction ss with
  | nil => simp [sliceContains]
  | cons v rest ih =>
    by_cases h : v = s
    · simp [sliceContains, h]
    · have h2 : ¬ s = v := fun h3 => h h3.symm
      simp [sliceContains, h, h2, ih]

theorem sliceHasIntersection_iff (s1 s2 : List String) :
    sliceHasIntersection s1 s2 = true ↔ ∃ t, t ∈ s1 ∧ t ∈ s2 := by
  induction s1 with
  | nil => simp [sliceHasIntersection]
  | cons t rest ih =>
    by_cases h : sliceContains s2 t = true
    · have h2 : t ∈ s2 := (sliceContains_iff s2 t).1 h
      simp only [sliceHasIntersection, h, if_true, true_iff]
      exact ⟨t, List.mem_cons_self t rest, h2⟩
    · have h2 : ¬ t ∈ s2 := fun h3 => h ((sliceContains_iff s2 t).2 h3)
      have hf : sliceContains s2 t = false := by simpa using h
      rw [sliceHasIntersection, hf]
      simp only [Bool.false_eq_true, if_false]
      rw [ih]
      constructor
      · rintro ⟨u, hu1, hu2⟩
        exact ⟨u, List.mem_cons_of_mem t hu1, hu2⟩
      · rintro ⟨u, hu1, hu2⟩
        rcases List.mem_cons.1 hu1 with h3 | h3
        · exact absurd (h3 ▸ hu2) h2
        · exact ⟨u, h3, hu2⟩

/-- The struct case written out in `nestedNames` is the call of the package-level
`SliceWithTag` of line 228, with its error dropped. -/
theorem nestedNames_struct (w : World) (p n : String) (fields : List StructField)
    (name : String) (tags : List String) :
    nestedNames w (.struct p n fields) name tags =
      (SliceWithTag w (.struct p n fields) name tags).map (fun r => (r.1.1, r.2)) := by
  simp only [nestedNames, SliceWithTag, encode.SliceWithTag]
  cases (getDefaultEncoder w).1.Load (getDefaultEncoder w).2
      ((getDefaultEncoder w).1.cacheKey (.struct p n fields) tags) with
  | some m => simp
  | none =>
    simp only
    cases encode.fieldLoop (getDefaultEncoder w).1 (getDefaultEncoder w).2 fields name tags [] with
    | none => simp
    | some r => simp

/-- A field whose type is not a struct under its pointers gives its own name. -/
theorem nestedNames_leaf (w : World) (name : String) (tags : List String) :
    (t : GoType) → (derefAll t).Kind ≠ Kind.Struct →
      nestedNames w t name tags = some ([name], w)
  | .ptr _ _ elem, h => by
    simp only [nestedNames]
    exact nestedNames_leaf w name tags elem (by simpa [derefAll] using h)
  | .basic _ _ _, _ => by simp [nestedNames]
  | .struct _ _ _, h => by simp [derefAll, GoType.Kind] at h

/-- The names built so far are only ever extended by the field loop. -/
theorem fieldLoop_names (e : encode) (pre : String) (tags : List String)
    (fs : List StructField) :
    ∀ (w : World) (names : List String),
      encode.fieldLoop e w fs pre tags names =
        (encode.fieldLoop e w fs pre tags []).map (fun r => (names ++ r.1, r.2)) := by
  induction fs with
  | nil => intro w names; simp [encode.fieldLoop]
  | cons f rest ih =>
    intro w names
    cases f with
    | mk fname anon ftag ftype =>
      have hrest : ∀ (w1 : World) (m : List String),
          encode.fieldLoop e w1 rest pre tags (names ++ m) =
            (encode.fieldLoop e w1 rest pre tags ([] ++ m)).map
              (fun r => (names ++ r.1, r.2)) := by
        intro w1 m
        rw [ih w1 (names ++ m), ih w1 ([] ++ m), Option.map_map]
        congr 1
        funext r
        simp [List.append_assoc]
      have hsame : ∀ (w1 : World),
          encode.fieldLoop e w1 rest pre tags names =
            (encode.fieldLoop e w1 rest pre tags []).map
              (fun r => (names ++ r.1, r.2)) := fun w1 => ih w1 names
      simp only [encode.fieldLoop]
      split
      · cases encode.SliceWithTag e w ftype pre tags with
        | none => rfl
        | some r =>
          obtain ⟨⟨m, err⟩, w1⟩ := r
          exact hrest w1 m
      · cases fname.data with
        | nil => rfl
        | cons c cs =>
          simp only
          split
          · exact hsame w
          · split
            · exact hsame w
            · split
              · exact hsame w
              · cases e.fieldName
                    ((strings.Split (StructTag.Get ftag e.tag) ',').headD "") ftag pre fname with
                | none => rfl
                | some o =>
                  cases o with
                  | none => exact hsame w
                  | some name =>
                    simp only
                    cases nestedNames w ftype name tags with
                    | none => rfl
                    | some r =>
                      obtain ⟨m, w1⟩ := r
                      exact hrest w1 m

/-- The field loop over two lists in a row is the loop over the first, continued by the
loop over the second. -/
theorem fieldLoop_append (e : encode) (pre : String) (tags : List String)
    (fs1 fs2 : List StructField) :
    ∀ (w : World) (names : List String),
      encode.fieldLoop e w (fs1 ++ fs2) pre tags names =
        (encode.fieldLoop e w fs1 pre tags names).bind
          (fun r => encode.fieldLoop e r.2 fs2 pre tags r.1) := by
  induction fs1 with
  | nil => intro w names; simp [encode.fieldLoop]
  | cons f rest ih =>
    intro w names
    cases f with
    | mk fname anon ftag ftype =>
      simp only [List.cons_append, encode.fieldLoop]
      split
      · cases encode.SliceWithTag e w ftype pre tags with
        | none => rfl
        | some r =>
          obtain ⟨⟨m, err⟩, w1⟩ := r
          exact ih w1 _
      · cases fname.data with
        | nil => rfl
        | cons c cs =>
          simp only
          split
          · exact ih w _
          · split
            · exact ih w _
            · split
              · exact ih w _
              · cases e.fieldName
                    ((strings.Split (StructTag.Get ftag e.tag) ',').headD "") ftag pre fname with
                | none => rfl
                | some o =>
                  cases o with
                  | none => exact ih w _
                  | some name =>
                    simp only
                    cases nestedNames w ftype name tags with
                    | none => rfl
                    | some r =>
                      obtain ⟨m, w1⟩ := r
                      exact ih w1 _

/-- A non-embedded field whose annotation starts with the sentinel is passed over. -/
theorem fieldLoop_sentinel (e : encode) (w : World) (pre fname : String) (ftag : StructTag)
    (ftype : GoType) (tags : List String) (rest : List StructField) (names : List String)
    (hname : fname ≠ "")
    (hts : (strings.Split (StructTag.Get ftag e.tag) ',').headD "" = "-") :
    encode.fieldLoop e w (.mk fname false ftag ftype :: rest) pre tags names =
      encode.fieldLoop e w rest pre tags names := by
  have hdata : fname.data ≠ [] := by
    intro h
    apply hname
    cases fname
    simp_all
  simp only [encode.fieldLoop, Bool.false_eq_true, if_false]
  cases hd : fname.data with
  | nil => exact absurd hd hdata
  | cons c cs =>
    simp only
    split
    · rfl
    · simp [hts]

/-- A non-embedded, exported field with an explicit name, a requested label and a type
that is no struct adds exactly its explicit name, under the prefix if there is one. -/
theorem fieldLoop_explicit (e : encode) (w : World) (pre fname name0 : String)
    (ftag : StructTag) (ftype : GoType) (tags ts : List String) (rest : List StructField)
    (names : List String)
    (hvis : exported fname = true)
    (hsplit : strings.Split (StructTag.Get ftag e.tag) ',' = name0 :: ts)
    (h0 : name0 ≠ "") (hs : name0 ≠ "-")
    (hlabel : sliceHasIntersection tags (name0 :: ts) = true)
    (hleaf : (derefAll ftype).Kind ≠ Kind.Struct) :
    encode.fieldLoop e w (.mk fname false ftag ftype :: rest) pre tags names =
      encode.fieldLoop e w rest pre tags
        (names ++ [if pre = "" then name0 else pre ++ "." ++ name0]) := by
  simp only [encode.fieldLoop]
  cases hd : fname.data with
  | nil => simp [exported, hd] at hvis
  | cons c cs =>
    have hc : (decide (c.toNat < 'A'.toNat) || decide (c.toNat > 'Z'.toNat)) = false := by
      simp only [exported, hd, Bool.and_eq_true, decide_eq_true_eq] at hvis
      simp only [Bool.or_eq_false_iff, decide_eq_false_iff_not, not_lt, gt_iff_lt]
      exact hvis
    simp only [hsplit, List.headD_cons, hc, hs, hlabel, encode.fieldName, h0]
    by_cases hp : pre = ""
    · simp [hp, h0, nestedNames_leaf w _ tags ftype hleaf]
    · simp [hp, h0, nestedNames_leaf w _ tags ftype hleaf]

/-- A field passed over in the middle of a field list can be left out of the list. -/
theorem fieldLoop_sentinel_mid (e : encode) (w : World) (pre fname : String)
    (ftag : StructTag) (ftype : GoType) (tags : List String) (fs1 fs2 : List StructField)
    (names : List String) (hname : fname ≠ "")
    (hts : (strings.Split (StructTag.Get ftag e.tag) ',').headD "" = "-") :
    encode.fieldLoop e w (fs1 ++ .mk fname false ftag ftype :: fs2) pre tags names =
      encode.fieldLoop e w (fs1 ++ fs2) pre tags names := by
  rw [fieldLoop_append, fieldLoop_append]
  congr 1
  funext r
  exact fieldLoop_sentinel e r.2 pre fname ftag ftype tags fs2 r.1 hname hts

/-- An exported name has a first byte, and it passes the test of line 197. -/
theorem exported_data (fname : String) (h : exported fname = true) :
    ∃ c cs, fname.data = c :: cs ∧
      (decide (c.toNat < 'A'.toNat) || decide (c.toNat > 'Z'.toNat)) = false := by
  cases hd : fname.data with
  | nil => simp [exported, hd] at h
  | cons c cs =>
    refine ⟨c, cs, rfl, ?_⟩
    simp only [exported, hd, Bool.and_eq_true, decide_eq_true_eq] at h
    simp only [Bool.or_eq_false_iff, decide_eq_false_iff_not, not_lt, gt_iff_lt]
    exact h

/-- A non-embedded field whose annotation shares no element with the requested labels
is passed over. -/
theorem fieldLoop_unlabelled (e : encode) (w : World) (pre fname : String) (ftag : StructTag)
    (ftype : GoType) (tags ts : List String) (rest : List StructField) (names : List String)
    (hname : fname ≠ "")
    (hsplit : strings.Split (StructTag.Get ftag e.tag) ',' = ts)
    (hlabel : sliceHasIntersection tags ts = false) :
    encode.fieldLoop e w (.mk fname false ftag ftype :: rest) pre tags names =
      encode.fieldLoop e w rest pre tags names := by
  have hdata : fname.data ≠ [] := by
    intro h
    apply hname
    cases fname
    simp_all
  simp only [encode.fieldLoop, Bool.false_eq_true, if_false]
  cases hd : fname.data with
  | nil => exact absurd hd hdata
  | cons c cs =>
    simp only
    split
    · rfl
    · split
      · rfl
      · simp [hsplit, hlabel]

/-- An exported, non-embedded field that passes the checks and has the external name
`name` adds what lines 222-234 give for its type. -/
theorem fieldLoop_named (e : encode) (w : World) (pre fname name : String)
    (ftag : StructTag) (ftype : GoType) (tags ts : List String) (rest : List StructField)
    (names : List String)
    (hvis : exported fname = true)
    (hsplit : strings.Split (StructTag.Get ftag e.tag) ',' = ts)
    (hs : ts.headD "" ≠ "-")
    (hlabel : sliceHasIntersection tags ts = true)
    (hn : e.fieldName (ts.headD "") ftag pre fname = some (some name)) :
    encode.fieldLoop e w (.mk fname false ftag ftype :: rest) pre tags names =
      (nestedNames w ftype name tags).bind
        (fun r => encode.fieldLoop e r.2 rest pre tags (names ++ r.1)) := by
  obtain ⟨c, cs, hd, hc⟩ := exported_data fname hvis
  simp only [encode.fieldLoop, Bool.false_eq_true, if_false, hd, hc, hsplit, hs, hlabel, hn,
    Bool.not_true]
  cases nestedNames w ftype name tags with
  | none => rfl
  | some r => rfl

/-- A non-embedded field for which the encoder returns the empty string is passed over. -/
theorem fieldLoop_omitted (e : encode) (w : World) (pre fname : String) (ftag : StructTag)
    (ftype : GoType) (tags ts : List String) (enc : EncoderFunc) (rest : List StructField)
    (names : List String)
    (hvis : exported fname = true)
    (hsplit : strings.Split (StructTag.Get ftag e.tag) ',' = ts)
    (h0 : ts.headD "" = "")
    (hlabel : sliceHasIntersection tags ts = true)
    (henc : e.encoder = some enc)
    (hempty : enc ftag pre fname = some "") :
    encode.fieldLoop e w (.mk fname false ftag ftype :: rest) pre tags names =
      encode.fieldLoop e w rest pre tags names := by
  obtain ⟨c, cs, hd, hc⟩ := exported_data fname hvis
  have hs : ¬ ("" : String) = "-" := by decide
  simp only [encode.fieldLoop, Bool.false_eq_true, if_false, hd, hc, hsplit, h0, hs, hlabel,
    Bool.not_true, encode.fieldName, henc, hempty, ne_eq, not_true_eq_false, if_true]

/-- A string that starts with a non-empty string is not empty. -/
theorem append_ne_empty (p s : String) (h : p ≠ "") : p ++ s ≠ "" := by
  intro h1
  have h2 : (p ++ s).data = [] := by rw [h1]
  rw [String.data_append] at h2
  apply h
  apply String.ext
  exact (List.append_eq_nil.1 h2).1

/-- The map allocated last is read at the address it was given. -/
theorem getD_alloc (maps : List (List (String × List String))) (c : List (String × List String)) :
    (maps ++ [c]).getD maps.length [] = c := by
  simp [List.getD_eq_getElem?_getD]

/-- The map allocated last is written at the address it was given. -/
theorem set_alloc (maps : List (List (String × List String))) (c c1 : List (String × List String)) :
    (maps ++ [c]).set maps.length c1 = maps ++ [c1] := by
  induction maps with
  | nil => rfl
  | cons a rest ih => simp [ih]

/-- The lookup of a configuration whose cache is the map allocated last. -/
theorem Load_alloc (tag : String) (enc : Option EncoderFunc)
    (maps : List (List (String × List String))) (c : List (String × List String))
    (dflt : Option encode) (key : String) :
    encode.Load ⟨tag, enc, some maps.length⟩ ⟨maps ++ [c], dflt⟩ key =
      if key ≠ "" then c.lookup key else none := by
  simp only [encode.Load, getD_alloc]

/-- The store of a configuration whose cache is the map allocated last. -/
theorem Store_alloc (tag : String) (enc : Option EncoderFunc)
    (maps : List (List (String × List String))) (c : List (String × List String))
    (dflt : Option encode) (key : String) (names : List String) :
    encode.Store ⟨tag, enc, some maps.length⟩ ⟨maps ++ [c], dflt⟩ key names =
      if key ≠ "" then ⟨maps ++ [(key, names) :: c], dflt⟩ else ⟨maps ++ [c], dflt⟩ := by
  simp only [encode.Store, getD_alloc, set_alloc]

theorem append_ne_of_length (p s t : String) (h : t.length < s.length) : p ++ s ≠ t := by
  intro h1
  have h2 : (p ++ s).length = t.length := by rw [h1]
  rw [String.length_append] at h2
  omega

theorem append_left_cancel (p s t : String) (h : p ++ s = p ++ t) : s = t := by
  have h1 : (p ++ s).data = (p ++ t).data := by rw [h]
  rw [String.data_append, String.data_append] at h1
  exact String.ext (List.append_cancel_left h1)

theorem lookup_cons_ne (k a : String) (v : List String) (rest : List (String × List String))
    (h : k ≠ a) : List.lookup k ((a, v) :: rest) = List.lookup k rest := by
  have h1 : (k == a) = false := by simpa using h
  simp [List.lookup, h1]

/-- An embedded field adds the names of the call on its type, whatever its error. -/
theorem fieldLoop_embedded (e : encode) (w : World) (pre fname : String) (ftag : StructTag)
    (ftype : GoType) (tags : List String) (rest : List StructField) (names : List String) :
    encode.fieldLoop e w (.mk fname true ftag ftype :: rest) pre tags names =
      (e.SliceWithTag w ftype pre tags).bind
        (fun r => encode.fieldLoop e r.2 rest pre tags (names ++ r.1.1)) := by
  simp only [encode.fieldLoop, if_true]
  cases e.SliceWithTag w ftype pre tags with
  | none => rfl
  | some r => rfl

/-- The call on the embedded `*Base` under one of the two labels, when its key is not in
the cache. -/
theorem base_call (pkg : String) (maps : List (List (String × List String)))
    (c : List (String × List String)) (label : String)
    (hl : label = "list" ∨ label = "detail")
    (hc : c.lookup label = none) :
    (underscoreDefault maps.length).SliceWithTag ⟨maps ++ [c], some (underscoreDefault maps.length)⟩
        (.ptr "" "" (Base pkg)) "" [label] =
      some ((["hello_world"], none),
        ⟨maps ++ [(label, ["hello_world"]) :: c], some (underscoreDefault maps.length)⟩) := by
  have hne : label ≠ "" := by rcases hl with h | h <;> rw [h] <;> decide
  have hkey : (underscoreDefault maps.length).cacheKey (.ptr "" "" (Base pkg)) [label] = label := by
    simp [encode.cacheKey, underscoreDefault, GoType.PkgPath, GoType.Name, strings.Join]
  have hloop : encode.fieldLoop (underscoreDefault maps.length) ⟨maps ++ [c], some (underscoreDefault maps.length)⟩
      [.mk "HelloWorld" false [("vtag", ",list,detail")] goString] "" [label] [] =
      some (["hello_world"], ⟨maps ++ [c], some (underscoreDefault maps.length)⟩) := by
    rw [fieldLoop_named _ _ "" "HelloWorld" "hello_world" _ _ _ ["", "list", "detail"] _ _
      (by decide) (by rfl) (by decide)
      (by rcases hl with h | h <;> rw [h] <;> decide) (by rfl)]
    rw [nestedNames_leaf _ _ _ _ (by decide)]
    simp [encode.fieldLoop]
  rw [Base, encode.SliceWithTag, ← Base, hkey, underscoreDefault, Load_alloc, if_pos hne, hc]
  simp only
  rw [← underscoreDefault, hloop]
  simp only
  rw [underscoreDefault, Store_alloc, if_pos hne]

/-- The nested call for the field `Ext` under the label `list`, when its key is not in the
cache. -/
theorem ext_call (pkg : String) (maps : List (List (String × List String)))
    (c : List (String × List String))
    (hc : c.lookup (pkg ++ "Ext" ++ "list") = none) :
    nestedNames ⟨maps ++ [c], some (underscoreDefault maps.length)⟩ (Ext pkg) "ext" ["list"] =
      some (["ext.dd"],
        ⟨maps ++ [(pkg ++ "Ext" ++ "list", ["ext.dd"]) :: c], some (underscoreDefault maps.length)⟩) := by
  have hne : pkg ++ "Ext" ++ "list" ≠ "" := by
    rw [String.append_assoc]
    exact append_ne_of_length pkg _ "" (by decide)
  have hkey : (underscoreDefault maps.length).cacheKey (Ext pkg) ["list"] = pkg ++ "Ext" ++ "list" := by
    simp [encode.cacheKey, underscoreDefault, Ext, GoType.PkgPath, GoType.Name, strings.Join]
  have hloop : encode.fieldLoop (underscoreDefault maps.length) ⟨maps ++ [c], some (underscoreDefault maps.length)⟩
      [.mk "DD" false [("vtag", ",list")] goString] "ext" ["list"] [] =
      some (["ext.dd"], ⟨maps ++ [c], some (underscoreDefault maps.length)⟩) := by
    rw [fieldLoop_named _ _ "ext" "DD" "ext.dd" _ _ _ ["", "list"] _ _
      (by decide) (by rfl) (by decide) (by decide) (by rfl)]
    rw [nestedNames_leaf _ _ _ _ (by decide)]
    simp [encode.fieldLoop]
  rw [Ext, nestedNames, ← Ext]
  simp only [getDefaultEncoder]
  rw [hkey, underscoreDefault, Load_alloc, if_pos hne, hc]
  simp only
  rw [← underscoreDefault, hloop]
  simp only
  rw [underscoreDefault, Store_alloc, if_pos hne]

/-- The first call of the scenario, with the state it leaves. -/
theorem student_list (pkg : String) (maps : List (List (String × List String))) :
    SliceWithTag (InitEncoder (some UnderScoreCaseEncodeFunc) ⟨maps, none⟩) (Student pkg) ""
        ["list"] =
      some ((["hello_world", "ext.dd", "name", "age"], none),
        ⟨maps ++ [[(pkg ++ "Student" ++ "list", ["hello_world", "ext.dd", "name", "age"]),
            (pkg ++ "Ext" ++ "list", ["ext.dd"]), ("list", ["hello_world"])]],
          some (underscoreDefault maps.length)⟩) := by
  have hne : pkg ++ "Student" ++ "list" ≠ "" := by
    rw [String.append_assoc]
    exact append_ne_of_length pkg _ "" (by decide)
  have hE : pkg ++ "Ext" ++ "list" ≠ "list" := by
    rw [String.append_assoc]
    exact append_ne_of_length pkg _ "list" (by decide)
  have hkey : (underscoreDefault maps.length).cacheKey (Student pkg) ["list"] = pkg ++ "Student" ++ "list" := by
    simp [encode.cacheKey, underscoreDefault, Student, GoType.PkgPath, GoType.Name, strings.Join]
  have hinit : InitEncoder (some UnderScoreCaseEncodeFunc) ⟨maps, none⟩ =
      ⟨maps ++ [[]], some (underscoreDefault maps.length)⟩ := rfl
  rw [hinit, SliceWithTag]
  simp only [getDefaultEncoder]
  rw [Student, encode.SliceWithTag, ← Student, hkey]
  rw [underscoreDefault, Load_alloc, if_pos hne, ← underscoreDefault]
  simp only [List.lookup]
  rw [fieldLoop_embedded, base_call pkg maps [] "list" (Or.inl rfl) rfl, Option.some_bind]
  simp only
  rw [fieldLoop_named _ _ "" "Ext" "ext" _ _ _ ["", "list"] _ _
      (by decide) (by rfl) (by decide) (by decide) (by rfl)]
  rw [ext_call pkg maps _ (by rw [lookup_cons_ne _ _ _ _ hE]; rfl), Option.some_bind]
  simp only
  rw [fieldLoop_named _ _ "" "Name" "name" _ _ _ ["name", "list", "detail"] _ _
      (by decide) (by rfl) (by decide) (by decide) (by rfl)]
  rw [nestedNames_leaf _ _ _ _ (by decide), Option.some_bind]
  simp only
  rw [fieldLoop_named _ _ "" "Age" "age" _ _ _ ["age", "list", "detail"] _ _
      (by decide) (by rfl) (by decide) (by decide) (by rfl)]
  rw [nestedNames_leaf _ _ _ _ (by decide), Option.some_bind]
  simp only [encode.fieldLoop, List.nil_append, List.cons_append]
  rw [underscoreDefault, Store_alloc, if_pos hne]

/-- The second call of the scenario, on the state the first call left. -/
theorem student_detail (pkg : String) (maps : List (List (String × List String))) :
    (SliceWithTag
        ⟨maps ++ [[(pkg ++ "Student" ++ "list", ["hello_world", "ext.dd", "name", "age"]),
            (pkg ++ "Ext" ++ "list", ["ext.dd"]), ("list", ["hello_world"])]],
          some (underscoreDefault maps.length)⟩ (Student pkg) "" ["detail"]).map (fun r => r.1) =
      some (["hello_world", "name", "age"], none) := by
  have hne : pkg ++ "Student" ++ "detail" ≠ "" := by
    rw [String.append_assoc]
    exact append_ne_of_length pkg _ "" (by decide)
  have h1 : pkg ++ "Student" ++ "detail" ≠ pkg ++ "Student" ++ "list" := by
    intro h
    exact absurd (append_left_cancel _ _ _ h) (by decide)
  have h2 : pkg ++ "Student" ++ "detail" ≠ pkg ++ "Ext" ++ "list" := by
    rw [String.append_assoc, String.append_assoc]
    intro h
    exact absurd (append_left_cancel _ _ _ h) (by decide)
  have h3 : pkg ++ "Student" ++ "detail" ≠ "list" := by
    rw [String.append_assoc]
    exact append_ne_of_length pkg _ "list" (by decide)
  have h4 : "detail" ≠ pkg ++ "Student" ++ "list" := by
    rw [String.append_assoc]
    exact (append_ne_of_length pkg _ "detail" (by decide)).symm
  have h5 : "detail" ≠ pkg ++ "Ext" ++ "list" := by
    rw [String.append_assoc]
    exact (append_ne_of_length pkg _ "detail" (by decide)).symm
  have hkey : (underscoreDefault maps.length).cacheKey (Student pkg) ["detail"] =
      pkg ++ "Student" ++ "detail" := by
    simp [encode.cacheKey, underscoreDefault, Student, GoType.PkgPath, GoType.Name, strings.Join]
  rw [SliceWithTag]
  simp only [getDefaultEncoder]
  rw [Student, encode.SliceWithTag, ← Student, hkey]
  rw [underscoreDefault, Load_alloc, if_pos hne, ← underscoreDefault]
  rw [lookup_cons_ne _ _ _ _ h1, lookup_cons_ne _ _ _ _ h2, lookup_cons_ne _ _ _ _ h3]
  simp only [List.lookup]
  rw [fieldLoop_embedded,
    base_call pkg maps _ "detail" (Or.inr rfl)
      (by rw [lookup_cons_ne _ _ _ _ h4, lookup_cons_ne _ _ _ _ h5]; rfl),
    Option.some_bind]
  simp only
  rw [fieldLoop_unlabelled _ _ "" "Ext" _ _ _ ["", "list"] _ _ (by decide) (by rfl) (by decide)]
  rw [fieldLoop_named _ _ "" "Name" "name" _ _ _ ["name", "list", "detail"] _ _
      (by decide) (by rfl) (by decide) (by decide) (by rfl)]
  rw [nestedNames_leaf _ _ _ _ (by decide), Option.some_bind]
  simp only
  rw [fieldLoop_named _ _ "" "Age" "age" _ _ _ ["age", "list", "detail"] _ _
      (by decide) (by rfl) (by decide) (by decide) (by rfl)]
  rw [nestedNames_leaf _ _ _ _ (by decide), Option.some_bind]
  simp only [encode.fieldLoop, List.nil_append, List.cons_append, Option.map_some']


/-! ## The claims -/

/-- C1: in a process whose default configuration is not built yet (whatever other
configurations it holds, and whatever the import path of the package), after
`InitEncoder(UnderScoreCaseEncodeFunc)` the call `SliceWithTag(Student{}, "", "list")`
returns `hello_world, ext.dd, name, age` and a nil error, and the following call
`SliceWithTag(Student{}, "", "detail")` returns `hello_world, name, age` and a nil
error. -/
theorem student_scenario (pkg : String) (maps : List (List (String × List String))) :
    (SliceWithTag
        (InitEncoder (some UnderScoreCaseEncodeFunc) { maps := maps, defaultEncoder := none })
        (Student pkg) "" ["list"]).map (fun r => r.1)
      = some (["hello_world", "ext.dd", "name", "age"], none) ∧
    ((SliceWithTag
        (InitEncoder (some UnderScoreCaseEncodeFunc) { maps := maps, defaultEncoder := none })
        (Student pkg) "" ["list"]).bind
      (fun r => SliceWithTag r.2 (Student pkg) "" ["detail"])).map (fun r => r.1)
      = some (["hello_world", "name", "age"], none) := by
  rw [student_list pkg maps]
  exact ⟨rfl, student_detail pkg maps⟩

/-- C2, at the failing input: the field `Summary` of `Named` has the explicit name `detail`
and the single label `list`; the request for the label `detail`, which is none of its
labels, includes it all the same (under the name `detail`). -/
theorem explicit_name_taken_as_label :
    (SliceWithTag World.init Named "" ["detail"]).map (fun r => r.1)
      = some (["detail"], none) := by
  rfl

/-- C3, at the failing input: in `Pair` the fields `X` and `Y` have the same record type
`Item`; on the default configuration the names contributed by `Y` are those computed for
`X`, so they start with `X.` and not with `Y.`. -/
theorem sibling_takes_first_prefix :
    (SliceWithTag World.init Pair "" ["list"]).map (fun r => r.1)
      = some (["X.A", "X.A"], none) := by
  rfl

/-- C4, at the failing input: after `SliceWithTag(Item{}, "a", "list")` the call
`SliceWithTag(Item{}, "b", "list")` returns `a.A` on a configuration built with caching
and `b.A` on the same configuration built without. -/
theorem cache_not_transparent :
    (((NewEncoder "" none true World.init).1.SliceWithTag
        (NewEncoder "" none true World.init).2 Item "a" ["list"]).bind
      (fun r => (NewEncoder "" none true World.init).1.SliceWithTag r.2 Item "b"
        ["list"])).map (fun r => r.1) = some (["a.A"], none) ∧
    (((NewEncoder "" none false World.init).1.SliceWithTag
        (NewEncoder "" none false World.init).2 Item "a" ["list"]).bind
      (fun r => (NewEncoder "" none false World.init).1.SliceWithTag r.2 Item "b"
        ["list"])).map (fun r => r.1) = some (["b.A"], none) := by
  constructor <;> rfl

/-- C5, at the failing inputs: on a cached configuration the call on `*Other` after a call
on `*Item` with the same label returns the names of `Item` (`A`, where `Other` has `B`),
and the call on `Views` with the label `ab` after a call with the labels `a`, `b` returns
the names computed for `a`, `b` (`P`, where the label `ab` selects `Q`). -/
theorem cache_entry_shared :
    (((NewEncoder "" none true World.init).1.SliceWithTag
        (NewEncoder "" none true World.init).2 (.ptr "" "" Item) "" ["list"]).bind
      (fun r => (NewEncoder "" none true World.init).1.SliceWithTag r.2 (.ptr "" "" Other) ""
        ["list"])).map (fun r => r.1) = some (["A"], none) ∧
    ((NewEncoder "" none true World.init).1.SliceWithTag
        (NewEncoder "" none true World.init).2 (.ptr "" "" Other) ""
        ["list"]).map (fun r => r.1) = some (["B"], none) ∧
    (((NewEncoder "" none true World.init).1.SliceWithTag
        (NewEncoder "" none true World.init).2 Views "" ["a", "b"]).bind
      (fun r => (NewEncoder "" none true World.init).1.SliceWithTag r.2 Views ""
        ["ab"])).map (fun r => r.1) = some (["P"], none) ∧
    ((NewEncoder "" none true World.init).1.SliceWithTag
        (NewEncoder "" none true World.init).2 Views "" ["ab"]).map (fun r => r.1)
      = some (["Q"], none) := by
  refine ⟨?_, ?_, ?_, ?_⟩ <;> rfl

/-- C6, at the failing input, for every pair of library functions: as the type of the
field `In` of `JOuter`, the record `JInner` is resolved by the default configuration (key
`vtag`, no encoder) and contributes nothing to the result of the configuration
`NewEncoder("json", LowerEncodeFunc, false)`, which resolves `JInner` itself, under the
prefix `in`, to `in.` followed by the lower-cased `A`, that is to `in.a`. -/
theorem nested_record_uses_default (lib : StringsCase) :
    ((NewEncoder "json" (some (LowerEncodeFunc lib)) false World.init).1.SliceWithTag
        (NewEncoder "json" (some (LowerEncodeFunc lib)) false World.init).2 JOuter ""
        ["list"]).map (fun r => r.1) = some ([], none) ∧
    ((NewEncoder "json" (some (LowerEncodeFunc lib)) false World.init).1.SliceWithTag
        (NewEncoder "json" (some (LowerEncodeFunc lib)) false World.init).2 JInner "in"
        ["list"]).map (fun r => r.1) = some (["in" ++ "." ++ lib.ToLower "A"], none) ∧
    (lib.onASCII →
      ((NewEncoder "json" (some (LowerEncodeFunc lib)) false World.init).1.SliceWithTag
        (NewEncoder "json" (some (LowerEncodeFunc lib)) false World.init).2 JInner "in"
        ["list"]).map (fun r => r.1) = some (["in.a"], none)) := by
  have he : (NewEncoder "json" (some (LowerEncodeFunc lib)) false World.init).1 =
      { tag := "json", encoder := some (LowerEncodeFunc lib), cache := none } := rfl
  have hw : (NewEncoder "json" (some (LowerEncodeFunc lib)) false World.init).2 =
      World.init := rfl
  have h2 : (encode.SliceWithTag
        { tag := "json", encoder := some (LowerEncodeFunc lib), cache := none } World.init
        JInner "in" ["list"]).map (fun r => r.1) =
      some (["in" ++ "." ++ lib.ToLower "A"], none) := by
    rw [JInner, encode.SliceWithTag]
    simp only [encode.Load]
    rw [fieldLoop_named _ _ "in" "A" ("in" ++ "." ++ lib.ToLower "A") _ _ _ ["", "list"] _ _
      (by decide) (by rfl) (by decide) (by decide)
      (by
        have hne : "in." ++ lib.ToLower "A" ≠ "" := append_ne_empty _ _ (by decide)
        simp [encode.fieldName, LowerEncodeFunc, hne])]
    rw [nestedNames_leaf _ _ _ _ (by decide)]
    simp [encode.fieldLoop]
  rw [he, hw]
  refine ⟨?_, h2, ?_⟩
  · rw [JOuter, encode.SliceWithTag]
    simp only [encode.Load]
    by_cases h : lib.ToLower "In" = ""
    · rw [fieldLoop_omitted _ _ "" "In" _ _ _ ["", "list"] (LowerEncodeFunc lib) _ _
        (by decide) (by rfl) (by decide) (by decide) rfl
        (by simp [LowerEncodeFunc, h])]
      simp [encode.fieldLoop]
    · rw [fieldLoop_named _ _ "" "In" (lib.ToLower "In") _ _ _ ["", "list"] _ _
        (by decide) (by rfl) (by decide) (by decide)
        (by simp [encode.fieldName, LowerEncodeFunc, h])]
      have hn : nestedNames World.init JInner (lib.ToLower "In") ["list"] =
          some ([], { maps := [[("mainJInnerlist", [])]],
                      defaultEncoder := some { tag := "vtag", encoder := none, cache := some 0 } }) := by
        rfl
      rw [hn]
      simp [encode.fieldLoop]
  · intro hlib
    rw [h2, (hlib "A" (by decide)).2]
    rfl

/-- C7, at the failing input: on a cached configuration, after `SliceWithTag(&Item{}, "",
"list")`, the call `SliceWithTag((*int)(nil), "", "list")` returns the name `A` and a nil
error; on the same configuration before that call it returns the error and no name. -/
theorem unsupported_type_served_from_cache :
    (((NewEncoder "" none true World.init).1.SliceWithTag
        (NewEncoder "" none true World.init).2 (.ptr "" "" Item) "" ["list"]).bind
      (fun r => (NewEncoder "" none true World.init).1.SliceWithTag r.2 (.ptr "" "" goInt) ""
        ["list"])).map (fun r => r.1) = some (["A"], none) ∧
    ((NewEncoder "" none true World.init).1.SliceWithTag
        (NewEncoder "" none true World.init).2 (.ptr "" "" goInt) ""
        ["list"]).map (fun r => r.1) = some ([], some "type: int, not support") := by
  constructor <;> rfl

/-- C8, at the failing input: on a cached configuration the embedded field `*MyInt` of
`Mixed`, whose type is no record, contributes the name `A` (the result is `A, A`), where
the same record without that field gives `A`. -/
theorem embedded_non_record_contributes :
    ((NewEncoder "" none true World.init).1.SliceWithTag
        (NewEncoder "" none true World.init).2 Mixed "" ["list"]).map (fun r => r.1)
      = some (["A", "A"], none) ∧
    ((NewEncoder "" none true World.init).1.SliceWithTag
        (NewEncoder "" none true World.init).2 OnlyItem "" ["list"]).map (fun r => r.1)
      = some (["A"], none) := by
  constructor <;> rfl

/-- C9, as stated, fails: the embedded field of `Masked` carries the annotation `-` and
its type's field `A` is in the result all the same; so it is not true that every field,
embedded or not, whose annotation's first element is `-` can be left out of its record
without a change of the result. -/
theorem sentinel_on_embedded_field_ignored :
    (SliceWithTag World.init Masked "" ["list"]).map (fun r => r.1) = some (["A"], none) ∧
    ¬ ∀ (e : encode) (w : World) (pre fname : String) (anonymous : Bool) (ftag : StructTag)
        (ftype : GoType) (tags : List String) (p n : String) (fs1 fs2 : List StructField),
      fname ≠ "" →
      (strings.Split (StructTag.Get ftag e.tag) ',').headD "" = "-" →
      e.SliceWithTag w (.struct p n (fs1 ++ .mk fname anonymous ftag ftype :: fs2)) pre tags =
        e.SliceWithTag w (.struct p n (fs1 ++ fs2)) pre tags := by
  refine ⟨rfl, ?_⟩
  intro h
  have h1 := h (getDefaultEncoder World.init).1 (getDefaultEncoder World.init).2 "" "Item"
    true [("vtag", "-")] Item ["list"] "main" "Masked" [] [] (by decide) (by decide)
  have h2 := congrArg (fun r => r.map (fun x => x.1)) h1
  exact absurd h2 (by decide)

/-- C9, amended: a non-embedded field (its name, as always in Go, not empty) whose
annotation's first element is `-` contributes no name, neither its own nor a descendant's,
whatever its type: the loop passes over it, and the call on a record (or on a pointer to
it) gives the same result and leaves the same state as the call on the record without that
field.  The annotation of an embedded field is not read: the loop treats an embedded field
the same under any two annotations. -/
theorem sentinel_excludes_non_embedded (e : encode) (w : World) (pre fname : String)
    (ftag : StructTag) (ftype : GoType) (tags : List String) (hname : fname ≠ "")
    (hts : (strings.Split (StructTag.Get ftag e.tag) ',').headD "" = "-") :
    (∀ (rest : List StructField) (names : List String),
      encode.fieldLoop e w (.mk fname false ftag ftype :: rest) pre tags names =
        encode.fieldLoop e w rest pre tags names) ∧
    (∀ (p n : String) (fs1 fs2 : List StructField),
      e.SliceWithTag w (.struct p n (fs1 ++ .mk fname false ftag ftype :: fs2)) pre tags =
        e.SliceWithTag w (.struct p n (fs1 ++ fs2)) pre tags) ∧
    (∀ (q m p n : String) (fs1 fs2 : List StructField),
      e.SliceWithTag w (.ptr q m (.struct p n (fs1 ++ .mk fname false ftag ftype :: fs2)))
          pre tags =
        e.SliceWithTag w (.ptr q m (.struct p n (fs1 ++ fs2))) pre tags) ∧
    (∀ (ename : String) (tag1 tag2 : StructTag) (etype : GoType) (rest : List StructField)
        (names : List String),
      encode.fieldLoop e w (.mk ename true tag1 etype :: rest) pre tags names =
        encode.fieldLoop e w (.mk ename true tag2 etype :: rest) pre tags names) := by
  refine ⟨?_, ?_, ?_, ?_⟩
  · intro rest names
    exact fieldLoop_sentinel e w pre fname ftag ftype tags rest names hname hts
  · intro p n fs1 fs2
    simp only [encode.SliceWithTag, encode.cacheKey, GoType.PkgPath, GoType.Name]
    rw [fieldLoop_sentinel_mid e w pre fname ftag ftype tags fs1 fs2 [] hname hts]
  · intro q m p n fs1 fs2
    simp only [encode.SliceWithTag, encode.cacheKey, GoType.PkgPath, GoType.Name]
    rw [fieldLoop_sentinel_mid e w pre fname ftag ftype tags fs1 fs2 [] hname hts]
  · intro ename tag1 tag2 etype rest names
    simp only [encode.fieldLoop, if_true]

/-- C9, instance: on the default configuration of a fresh process, a record with the
field `Secret Item` annotated `-,list` before its field `A` resolves as the record with
the field `A` alone. -/
theorem sentinel_excludes_non_embedded_witness :
    SliceWithTag World.init
        (.struct "main" "T" ([] ++ .mk "Secret" false [("vtag", "-,list")] Item ::
          [.mk "A" false [("vtag", ",list")] goString])) "" ["list"] =
      SliceWithTag World.init
        (.struct "main" "T" ([] ++ [.mk "A" false [("vtag", ",list")] goString])) ""
        ["list"] :=
  (sentinel_excludes_non_embedded (getDefaultEncoder World.init).1
    (getDefaultEncoder World.init).2 "" "Secret" [("vtag", "-,list")] Item ["list"]
    (by decide) (by decide)).2.1 "main" "T" [] [.mk "A" false [("vtag", ",list")] goString]

/-- When the call does not find its key in the cache: a visible, non-embedded field whose
type is no record and whose annotation is `myName,list` contributes, when the label `list`
is requested, exactly the name `myName` under an empty prefix and `prefix.myName`
otherwise, whatever the encoder of the configuration. -/
theorem explicit_name_on_miss (e : encode) (w : World) (pre fname : String)
    (ftag : StructTag) (ftype : GoType) (tags : List String)
    (hvis : exported fname = true)
    (htag : StructTag.Get ftag e.tag = "myName,list")
    (hleaf : (derefAll ftype).Kind ≠ Kind.Struct)
    (hreq : "list" ∈ tags) :
    (∀ (rest : List StructField) (names : List String),
      encode.fieldLoop e w (.mk fname false ftag ftype :: rest) pre tags names =
        encode.fieldLoop e w rest pre tags
          (names ++ [if pre = "" then "myName" else pre ++ "." ++ "myName"])) ∧
    (∀ (p n : String) (fs1 fs2 : List StructField) (n1 n2 : List String) (w1 w2 : World),
      e.Load w (e.cacheKey (.struct p n (fs1 ++ .mk fname false ftag ftype :: fs2)) tags)
        = none →
      encode.fieldLoop e w fs1 pre tags [] = some (n1, w1) →
      encode.fieldLoop e w1 fs2 pre tags [] = some (n2, w2) →
      e.SliceWithTag w (.struct p n (fs1 ++ .mk fname false ftag ftype :: fs2)) pre tags =
        some ((n1 ++ (if pre = "" then "myName" else pre ++ "." ++ "myName") :: n2, none),
          e.Store w2
            (e.cacheKey (.struct p n (fs1 ++ .mk fname false ftag ftype :: fs2)) tags)
            (n1 ++ (if pre = "" then "myName" else pre ++ "." ++ "myName") :: n2))) := by
  have hsplit : strings.Split (StructTag.Get ftag e.tag) ',' = "myName" :: ["list"] := by
    rw [htag]
    decide
  have hlabel : sliceHasIntersection tags ("myName" :: ["list"]) = true :=
    (sliceHasIntersection_iff tags _).2 ⟨"list", hreq, by simp⟩
  have hstep : ∀ (w0 : World) (rest : List StructField) (names : List String),
      encode.fieldLoop e w0 (.mk fname false ftag ftype :: rest) pre tags names =
        encode.fieldLoop e w0 rest pre tags
          (names ++ [if pre = "" then "myName" else pre ++ "." ++ "myName"]) :=
    fun w0 rest names =>
      fieldLoop_explicit e w0 pre fname "myName" ftag ftype tags ["list"] rest names hvis
        hsplit (by decide) (by decide) hlabel hleaf
  refine ⟨hstep w, ?_⟩
  intro p n fs1 fs2 n1 n2 w1 w2 hmiss h1 h2
  rw [encode.SliceWithTag, hmiss]
  simp only
  rw [fieldLoop_append, h1]
  rw [Option.some_bind, hstep w1 fs2 n1, fieldLoop_names, h2]
  simp

/-- C10, at the failing input: a new cached configuration that has resolved `*Item` and
never `Renamed` or `*Renamed` returns, for `SliceWithTag(&Renamed{}, "", "list")`, the name
`A` of `Item`, or `a` when the configuration has the encoder `UnderScoreCaseEncodeFunc`;
the field `Field`, annotated `myName,list`, does not contribute `myName`.  Before the call
on `*Item` the same call returns `myName`. -/
theorem explicit_name_lost_to_cache :
    (((NewEncoder "" none true World.init).1.SliceWithTag
        (NewEncoder "" none true World.init).2 (.ptr "" "" Item) "" ["list"]).bind
      (fun r => (NewEncoder "" none true World.init).1.SliceWithTag r.2 (.ptr "" "" Renamed)
        "" ["list"])).map (fun r => r.1) = some (["A"], none) ∧
    (((NewEncoder "" (some UnderScoreCaseEncodeFunc) true World.init).1.SliceWithTag
        (NewEncoder "" (some UnderScoreCaseEncodeFunc) true World.init).2 (.ptr "" "" Item)
        "" ["list"]).bind
      (fun r => (NewEncoder "" (some UnderScoreCaseEncodeFunc) true World.init).1.SliceWithTag
        r.2 (.ptr "" "" Renamed) "" ["list"])).map (fun r => r.1) = some (["a"], none) ∧
    ((NewEncoder "" none true World.init).1.SliceWithTag
        (NewEncoder "" none true World.init).2 (.ptr "" "" Renamed) ""
        ["list"]).map (fun r => r.1) = some (["myName"], none) := by
  refine ⟨?_, ?_, ?_⟩ <;> rfl

/-! ## Facts about `Snake2UnderScoreCase` -/

theorem snakeLoop_emit (rest : List Char) :
    ∀ (idx : Nat) (st : SnakeState), idx ≠ 0 →
      (snakeLoop rest idx st).buf ++ [lowerByte (snakeLoop rest idx st).last] =
        st.buf ++ snakeEmit rest idx st.last st.lastWrite := by
  induction rest with
  | nil => intro idx st _; simp [snakeLoop, snakeEmit]
  | cons v rest ih =>
    intro idx st hidx
    rw [snakeLoop, ih (idx + 1) _ (Nat.succ_ne_zero idx), snakeEmit]
    simp only [snakeStep, if_neg hidx]
    by_cases h1 : (isLowerByte v && (isUpperByte st.last && idx != 1 && st.lastWrite != '_')) = true <;>
      by_cases h2 : (isLowerByte st.last && isUpperByte v) = true <;>
      simp [h1, h2]

theorem Snake2UnderScoreCase_cons (c : Char) (rest : List Char) :
    Snake2UnderScoreCase ⟨c :: rest⟩ = ⟨snakeEmit rest 1 c (Char.ofNat 0)⟩ := by
  simp only [Snake2UnderScoreCase, snakeLoop, snakeStep, if_true]
  rw [snakeLoop_emit rest 1 _ (by decide)]
  simp

theorem Snake2UnderScoreCase_empty : Snake2UnderScoreCase "" = ⟨[Char.ofNat 0]⟩ := by
  decide



theorem toNat_ofNat_small (n : Nat) (h : n < 55296) : (Char.ofNat n).toNat = n := by
  have hv : n.isValidChar := Or.inl h
  simp only [Char.ofNat, hv, dif_pos, Char.ofNatAux, Char.toNat]
  rfl

theorem char_eq_of_toNat (c d : Char) (h : c.toNat = d.toNat) : c = d := by
  rw [← Char.ofNat_toNat c, ← Char.ofNat_toNat d, h]

theorem isUpperByte_iff (c : Char) : isUpperByte c = true ↔ 65 ≤ c.toNat ∧ c.toNat ≤ 90 := by
  simp [isUpperByte]

theorem isLowerByte_iff (c : Char) : isLowerByte c = true ↔ 97 ≤ c.toNat ∧ c.toNat ≤ 122 := by
  simp [isLowerByte]

theorem lowerByte_toNat (c : Char) :
    (lowerByte c).toNat = if 65 ≤ c.toNat ∧ c.toNat ≤ 90 then c.toNat + 32 else c.toNat := by
  by_cases h : 65 ≤ c.toNat ∧ c.toNat ≤ 90
  · have h1 : c.toNat - 65 + 97 = c.toNat + 32 := by omega
    simp only [lowerByte, Char.reduceToNat, h, decide_True, Bool.and_self, if_true, h1,
      and_self]
    exact toNat_ofNat_small _ (by omega)
  · have h2 : (decide (65 ≤ c.toNat) && decide (c.toNat ≤ 90)) = false := by
      simpa using h
    simp only [lowerByte, Char.reduceToNat, h2, if_neg h]
    simp

theorem lowerByte_not_upper (c : Char) : isUpperByte (lowerByte c) = false := by
  have h := lowerByte_toNat c
  cases hu : isUpperByte (lowerByte c) with
  | false => rfl
  | true =>
    rw [isUpperByte_iff] at hu
    split at h <;> omega

theorem lowerByte_of_not_upper (c : Char) (h : isUpperByte c = false) : lowerByte c = c := by
  apply char_eq_of_toNat
  rw [lowerByte_toNat]
  have h1 : ¬ (65 ≤ c.toNat ∧ c.toNat ≤ 90) := by
    rw [← isUpperByte_iff, h]
    simp
  rw [if_neg h1]

theorem lowerByte_eq_underscore (c : Char) : lowerByte c = '_' ↔ c = '_' := by
  constructor
  · intro h
    have h1 := lowerByte_toNat c
    rw [h] at h1
    apply char_eq_of_toNat
    have h2 : ('_' : Char).toNat = 95 := by decide
    rw [h2] at h1 ⊢
    split at h1 <;> omega
  · intro h
    rw [h]
    decide

theorem snakeEmit_ne_nil (rest : List Char) (idx : Nat) (last lastWrite : Char) :
    snakeEmit rest idx last lastWrite ≠ [] := by
  cases rest with
  | nil => simp [snakeEmit]
  | cons v rest =>
    rw [snakeEmit]
    split <;> split <;> simp

theorem snakeEmit_not_upper (rest : List Char) :
    ∀ (idx : Nat) (last lastWrite : Char),
      ∀ x ∈ snakeEmit rest idx last lastWrite, isUpperByte x = false := by
  induction rest with
  | nil =>
    intro idx last lastWrite x hx
    simp only [snakeEmit, List.mem_singleton] at hx
    rw [hx]
    exact lowerByte_not_upper last
  | cons v rest ih =>
    intro idx last lastWrite x hx
    have hu : isUpperByte '_' = false := by decide
    have hl := lowerByte_not_upper last
    rw [snakeEmit] at hx
    split at hx
    · split at hx
      · simp only [List.mem_cons] at hx
        rcases hx with h | h | h | h
        · rw [h]; exact hu
        · rw [h]; exact hl
        · rw [h]; exact hu
        · exact ih _ _ _ x h
      · simp only [List.mem_cons] at hx
        rcases hx with h | h | h
        · rw [h]; exact hu
        · rw [h]; exact hl
        · exact ih _ _ _ x h
    · split at hx
      · simp only [List.mem_cons] at hx
        rcases hx with h | h | h
        · rw [h]; exact hl
        · rw [h]; exact hu
        · exact ih _ _ _ x h
      · simp only [List.mem_cons] at hx
        rcases hx with h | h
        · rw [h]; exact hl
        · exact ih _ _ _ x h



theorem not_lower_of_upper (c : Char) (h : isUpperByte c = true) : isLowerByte c = false := by
  cases hl : isLowerByte c with
  | false => rfl
  | true =>
    rw [isUpperByte_iff] at h
    rw [isLowerByte_iff] at hl
    omega

theorem snakeEmit_of_no_upper (rest : List Char) :
    ∀ (idx : Nat) (last lastWrite : Char), isUpperByte last = false →
      (∀ c ∈ rest, isUpperByte c = false) →
      snakeEmit rest idx last lastWrite = last :: rest := by
  induction rest with
  | nil =>
    intro idx last lastWrite hl _
    simp [snakeEmit, lowerByte_of_not_upper last hl]
  | cons v rest ih =>
    intro idx last lastWrite hl hrest
    have hv : isUpperByte v = false := hrest v (List.mem_cons_self v rest)
    rw [snakeEmit]
    simp only [hl, hv, Bool.false_and, Bool.and_false, Bool.false_eq_true, if_false]
    rw [ih _ _ _ hv (fun c hc => hrest c (List.mem_cons_of_mem v hc)),
      lowerByte_of_not_upper last hl]

theorem snakeEmit_of_all_upper (rest : List Char) :
    ∀ (idx : Nat) (last lastWrite : Char), isUpperByte last = true →
      (∀ c ∈ rest, isUpperByte c = true) →
      snakeEmit rest idx last lastWrite = (last :: rest).map lowerByte := by
  induction rest with
  | nil =>
    intro idx last lastWrite _ _
    simp [snakeEmit]
  | cons v rest ih =>
    intro idx last lastWrite hl hrest
    have hv : isUpperByte v = true := hrest v (List.mem_cons_self v rest)
    have hv1 := not_lower_of_upper v hv
    have hl1 := not_lower_of_upper last hl
    rw [snakeEmit]
    simp only [hl1, hv1, Bool.false_and, Bool.false_eq_true, if_false]
    rw [ih _ _ _ hv (fun c hc => hrest c (List.mem_cons_of_mem v hc))]
    simp

theorem snakeEmit_filter (rest : List Char) :
    ∀ (idx : Nat) (last lastWrite : Char), last ≠ '_' → (∀ c ∈ rest, c ≠ '_') →
      (snakeEmit rest idx last lastWrite).filter (fun x => x != '_') =
        (last :: rest).map lowerByte := by
  induction rest with
  | nil =>
    intro idx last lastWrite hl _
    have h1 : lowerByte last ≠ '_' := fun h => hl ((lowerByte_eq_underscore last).1 h)
    simp [snakeEmit, h1]
  | cons v rest ih =>
    intro idx last lastWrite hl hrest
    have hv : v ≠ '_' := hrest v (List.mem_cons_self v rest)
    have h1 : lowerByte last ≠ '_' := fun h => hl ((lowerByte_eq_underscore last).1 h)
    have h2 := fun lw => ih (idx + 1) v lw hv (fun c hc => hrest c (List.mem_cons_of_mem v hc))
    rw [snakeEmit]
    split <;> split <;> simp [h1, h2]



theorem letter_ne_underscore (c : Char) (h : isLowerByte c = true ∨ isUpperByte c = true) :
    lowerByte c ≠ '_' := by
  intro h1
  have h2 := (lowerByte_eq_underscore c).1 h1
  rw [h2] at h
  revert h
  decide

theorem snakeEmit_wellformed (rest : List Char) :
    ∀ (idx : Nat) (last lastWrite : Char),
      (isLowerByte last = true ∨ isUpperByte last = true) →
      (∀ c ∈ rest, isLowerByte c = true ∨ isUpperByte c = true) →
      List.Chain' (fun a b => ¬ (a = '_' ∧ b = '_')) (snakeEmit rest idx last lastWrite) ∧
      (snakeEmit rest idx last lastWrite).getLast? ≠ some '_' ∧
      ((snakeEmit rest idx last lastWrite).head? = some '_' → idx ≠ 1 ∧ lastWrite ≠ '_') := by
  induction rest with
  | nil =>
    intro idx last lastWrite hl _
    have h1 := letter_ne_underscore last hl
    simp [snakeEmit, h1]
  | cons v rest ih =>
    intro idx last lastWrite hl hrest
    have hv := hrest v (List.mem_cons_self v rest)
    have h1 := letter_ne_underscore last hl
    have h2 := fun lw => ih (idx + 1) v lw hv (fun c hc => hrest c (List.mem_cons_of_mem v hc))
    rw [snakeEmit]
    split
    · rename_i hA
      have hA2 : idx ≠ 1 ∧ lastWrite ≠ '_' := by
        simp only [Bool.and_eq_true, bne_iff_ne, ne_eq] at hA
        exact ⟨hA.2.1.2, hA.2.2⟩
      split
      · obtain ⟨c1, c2, c3⟩ := h2 '_'
        cases hL : snakeEmit rest (idx + 1) v '_' with
        | nil => exact absurd hL (snakeEmit_ne_nil _ _ _ _)
        | cons y ys =>
          rw [hL] at c1 c2 c3
          have c1 : List.Chain' (fun a b => a = '_' → ¬ b = '_') (y :: ys) := by
            simpa only [not_and] using c1
          have hy : y ≠ '_' := fun h => (c3 (by simp [h])).2 rfl
          refine ⟨?_, ?_, fun _ => hA2⟩
          · simp [List.chain'_cons, h1, hy, c1]
          · simpa using c2
      · obtain ⟨c1, c2, c3⟩ := h2 last
        cases hL : snakeEmit rest (idx + 1) v last with
        | nil => exact absurd hL (snakeEmit_ne_nil _ _ _ _)
        | cons y ys =>
          rw [hL] at c1 c2 c3
          have c1 : List.Chain' (fun a b => a = '_' → ¬ b = '_') (y :: ys) := by
            simpa only [not_and] using c1
          refine ⟨?_, ?_, fun _ => hA2⟩
          · simp [List.chain'_cons, h1, c1]
          · simpa using c2
    · split
      · obtain ⟨c1, c2, c3⟩ := h2 '_'
        cases hL : snakeEmit rest (idx + 1) v '_' with
        | nil => exact absurd hL (snakeEmit_ne_nil _ _ _ _)
        | cons y ys =>
          rw [hL] at c1 c2 c3
          have c1 : List.Chain' (fun a b => a = '_' → ¬ b = '_') (y :: ys) := by
            simpa only [not_and] using c1
          have hy : y ≠ '_' := fun h => (c3 (by simp [h])).2 rfl
          refine ⟨?_, ?_, ?_⟩
          · simp [List.chain'_cons, h1, hy, c1]
          · simpa using c2
          · simp [h1]
      · obtain ⟨c1, c2, c3⟩ := h2 last
        cases hL : snakeEmit rest (idx + 1) v last with
        | nil => exact absurd hL (snakeEmit_ne_nil _ _ _ _)
        | cons y ys =>
          rw [hL] at c1 c2 c3
          have c1 : List.Chain' (fun a b => a = '_' → ¬ b = '_') (y :: ys) := by
            simpa only [not_and] using c1
          refine ⟨?_, ?_, ?_⟩
          · simp [List.chain'_cons, h1, c1]
          · simpa using c2
          · simp [h1]



theorem data_ne_nil (s : String) (h : s ≠ "") : s.data ≠ [] := by
  intro h1
  apply h
  cases s
  simp_all

theorem Snake2UnderScoreCase_data (s : String) :
    (Snake2UnderScoreCase s).data =
      match s.data with
      | [] => [Char.ofNat 0]
      | c :: rest => snakeEmit rest 1 c (Char.ofNat 0) := by
  obtain ⟨l⟩ := s
  cases l with
  | nil => decide
  | cons c rest => simp only [Snake2UnderScoreCase_cons]

/-- C13: for every input made only of ASCII letters, the output of `Snake2UnderScoreCase`
contains no two consecutive underscores, does not start with an underscore and does not
end with one. -/
theorem underscore_wellformed (s : String)
    (h : ∀ c ∈ s.data, isLowerByte c = true ∨ isUpperByte c = true) :
    ¬ (['_', '_'] <:+: (Snake2UnderScoreCase s).data) ∧
    (Snake2UnderScoreCase s).data.head? ≠ some '_' ∧
    (Snake2UnderScoreCase s).data.getLast? ≠ some '_' := by
  rw [Snake2UnderScoreCase_data]
  cases hd : s.data with
  | nil => decide
  | cons c rest =>
    simp only
    rw [hd] at h
    obtain ⟨c1, c2, c3⟩ := snakeEmit_wellformed rest 1 c (Char.ofNat 0)
      (h c (List.mem_cons_self c rest)) (fun x hx => h x (List.mem_cons_of_mem c hx))
    refine ⟨?_, ?_, c2⟩
    · intro hin
      have h2 := List.Chain'.infix c1 hin
      simp at h2
    · intro hh
      exact (c3 hh).1 rfl

/-- C13, instance: the input `HelloWorld`. -/
theorem underscore_wellformed_witness :
    ¬ (['_', '_'] <:+: (Snake2UnderScoreCase "HelloWorld").data) ∧
    (Snake2UnderScoreCase "HelloWorld").data.head? ≠ some '_' ∧
    (Snake2UnderScoreCase "HelloWorld").data.getLast? ≠ some '_' :=
  underscore_wellformed "HelloWorld" (by decide)

/-- C14: `Snake2UnderScoreCase` sends `HelloWorld` to `hello_world`, `DD` to `dd` and `ID`
to `id`; for every non-empty input made only of upper-case ASCII letters the output is the
input lower-cased, and it holds no underscore. -/
theorem underscore_reference_values :
    Snake2UnderScoreCase "HelloWorld" = "hello_world" ∧
    Snake2UnderScoreCase "DD" = "dd" ∧
    Snake2UnderScoreCase "ID" = "id" ∧
    ∀ s : String, s ≠ "" → (∀ c ∈ s.data, isUpperByte c = true) →
      Snake2UnderScoreCase s = String.mk (s.data.map lowerByte) ∧
      '_' ∉ (Snake2UnderScoreCase s).data ∧
      ∀ lib : StringsCase, lib.onASCII → Snake2UnderScoreCase s = lib.ToLower s := by
  refine ⟨by decide, by decide, by decide, ?_⟩
  intro s hne hup
  have hdata : (Snake2UnderScoreCase s).data = s.data.map lowerByte := by
    rw [Snake2UnderScoreCase_data]
    cases hd : s.data with
    | nil => exact absurd hd (data_ne_nil s hne)
    | cons c rest =>
      rw [hd] at hup
      exact snakeEmit_of_all_upper rest 1 c _ (hup c (List.mem_cons_self c rest))
        (fun x hx => hup x (List.mem_cons_of_mem c hx))
  have hascii : isASCII s = true := by
    rw [isASCII, List.all_eq_true]
    intro c hc
    have h1 := (isUpperByte_iff c).1 (hup c hc)
    simp only [decide_eq_true_eq]
    omega
  refine ⟨String.ext hdata, ?_, ?_⟩
  · rw [hdata]
    intro hmem
    obtain ⟨x, hx, hx2⟩ := List.mem_map.1 hmem
    have h3 := (lowerByte_eq_underscore x).1 hx2
    have h4 := hup x hx
    rw [h3] at h4
    revert h4
    decide
  · intro lib hlib
    rw [(hlib s hascii).2]
    exact String.ext hdata

/-- C14, instance: the input `HTTP`. -/
theorem underscore_reference_values_witness :
    Snake2UnderScoreCase "HTTP" = String.mk ("HTTP".data.map lowerByte) ∧
      '_' ∉ (Snake2UnderScoreCase "HTTP").data ∧
      ∀ lib : StringsCase, lib.onASCII → Snake2UnderScoreCase "HTTP" = lib.ToLower "HTTP" :=
  underscore_reference_values.2.2.2 "HTTP" (by decide) (by decide)

/-- C18: `Snake2UnderScoreCase` is idempotent on every input, the empty one included; its
output never holds an upper-case ASCII letter, and every non-empty input without
upper-case ASCII letters is returned unchanged. -/
theorem underscore_idempotent (s : String) :
    Snake2UnderScoreCase (Snake2UnderScoreCase s) = Snake2UnderScoreCase s ∧
    (∀ c ∈ (Snake2UnderScoreCase s).data, isUpperByte c = false) ∧
    (s ≠ "" → (∀ c ∈ s.data, isUpperByte c = false) → Snake2UnderScoreCase s = s) := by
  have hfix : ∀ t : String, t ≠ "" → (∀ c ∈ t.data, isUpperByte c = false) →
      Snake2UnderScoreCase t = t := by
    intro t hne hno
    apply String.ext
    rw [Snake2UnderScoreCase_data]
    cases hd : t.data with
    | nil => exact absurd hd (data_ne_nil t hne)
    | cons c rest =>
      rw [hd] at hno
      exact snakeEmit_of_no_upper rest 1 c _ (hno c (List.mem_cons_self c rest))
        (fun x hx => hno x (List.mem_cons_of_mem c hx))
  have hlow : ∀ c ∈ (Snake2UnderScoreCase s).data, isUpperByte c = false := by
    rw [Snake2UnderScoreCase_data]
    cases hd : s.data with
    | nil => decide
    | cons c rest => exact snakeEmit_not_upper rest 1 c _
  have hne : Snake2UnderScoreCase s ≠ "" := by
    intro h
    have h1 : (Snake2UnderScoreCase s).data = [] := by rw [h]
    rw [Snake2UnderScoreCase_data] at h1
    cases hd : s.data with
    | nil => rw [hd] at h1; simp at h1
    | cons c rest => rw [hd] at h1; exact snakeEmit_ne_nil _ _ _ _ h1
  exact ⟨hfix _ hne hlow, hlow, hfix s⟩

/-- C18, instance: the input `hello_world` is returned unchanged. -/
theorem underscore_idempotent_witness :
    Snake2UnderScoreCase "hello_world" = "hello_world" :=
  (underscore_idempotent "hello_world").2.2 (by decide) (by decide)

/-- C19: for every non-empty input without an underscore, the output of
`Snake2UnderScoreCase` with its underscores deleted is the input with each upper-case ASCII
letter lower-cased, byte for byte; so the output is at least as long as the input. -/
theorem underscore_only_inserted (s : String) (hne : s ≠ "") (hno : ∀ c ∈ s.data, c ≠ '_') :
    (Snake2UnderScoreCase s).data.filter (fun x => x != '_') = s.data.map lowerByte ∧
    s.length ≤ (Snake2UnderScoreCase s).length := by
  have h1 : (Snake2UnderScoreCase s).data.filter (fun x => x != '_') = s.data.map lowerByte := by
    rw [Snake2UnderScoreCase_data]
    cases hd : s.data with
    | nil => exact absurd hd (data_ne_nil s hne)
    | cons c rest =>
      rw [hd] at hno
      exact snakeEmit_filter rest 1 c _ (hno c (List.mem_cons_self c rest))
        (fun x hx => hno x (List.mem_cons_of_mem c hx))
  refine ⟨h1, ?_⟩
  have h2 := List.length_filter_le (fun x => x != '_') (Snake2UnderScoreCase s).data
  rw [h1, List.length_map] at h2
  exact h2

/-- C19, instance: the input `HelloWorld`. -/
theorem underscore_only_inserted_witness :
    (Snake2UnderScoreCase "HelloWorld").data.filter (fun x => x != '_') =
        "HelloWorld".data.map lowerByte ∧
      "HelloWorld".length ≤ (Snake2UnderScoreCase "HelloWorld").length :=
  underscore_only_inserted "HelloWorld" (by decide) (by decide)

/-- C20: the output of `Snake2UnderScoreCase` is never the empty string, it has at least
one byte; on the empty input it is the one-byte string that holds the zero byte; so
`UnderScoreCaseEncodeFunc` returns a non-empty name on every input and never signals the
omission of a field. -/
theorem underscore_never_empty (s : String) :
    Snake2UnderScoreCase s ≠ "" ∧ 1 ≤ (Snake2UnderScoreCase s).length ∧
    Snake2UnderScoreCase "" = String.mk [Char.ofNat 0] ∧
    ∀ (field : StructTag) (pre name : String),
      ∃ key, UnderScoreCaseEncodeFunc field pre name = some key ∧ key ≠ "" := by
  have hne : ∀ t : String, Snake2UnderScoreCase t ≠ "" := by
    intro t h
    have h1 : (Snake2UnderScoreCase t).data = [] := by rw [h]
    rw [Snake2UnderScoreCase_data] at h1
    cases hd : t.data with
    | nil => rw [hd] at h1; simp at h1
    | cons c rest => rw [hd] at h1; exact snakeEmit_ne_nil _ _ _ _ h1
  refine ⟨hne s, ?_, by decide, ?_⟩
  · have h1 := data_ne_nil _ (hne s)
    rw [String.length]
    exact List.length_pos.2 h1
  · intro field pre name
    by_cases hp : pre = ""
    · exact ⟨Snake2UnderScoreCase name, by simp [UnderScoreCaseEncodeFunc, hp], hne name⟩
    · refine ⟨pre ++ "." ++ Snake2UnderScoreCase name,
        by simp [UnderScoreCaseEncodeFunc, hp], ?_⟩
      intro h
      have h1 : (pre ++ "." ++ Snake2UnderScoreCase name).length = 0 := by rw [h]; rfl
      simp only [String.length_append] at h1
      have h2 : (".").length = 1 := by decide
      omega

/-! ## Facts about the default configuration -/

theorem Store_defaultEncoder (e : encode) (w : World) (key : String) (names : List String) :
    (e.Store w key names).defaultEncoder = w.defaultEncoder := by
  unfold encode.Store
  split
  · rfl
  · split <;> rfl

theorem getDefaultEncoder_of_some (w : World) (d : encode) (h : w.defaultEncoder = some d) :
    getDefaultEncoder w = (d, w) := by
  simp [getDefaultEncoder, h]

mutual
theorem SliceWithTag_keeps (e : encode) (w : World) (d : encode) (pre : String)
    (tags : List String) :
    (typ : GoType) → (r : List String × Option String) → (w1 : World) →
      w.defaultEncoder = some d → e.SliceWithTag w typ pre tags = some (r, w1) →
      w1.defaultEncoder = some d
  | .ptr _ _ (.struct _ _ fields), r, w1, hd, h => by
    rw [encode.SliceWithTag] at h
    split at h
    · simp only [Option.some.injEq, Prod.mk.injEq] at h
      rw [← h.2]; exact hd
    · split at h
      · exact absurd h (by simp)
      · rename_i names w2 hl
        simp only [Option.some.injEq, Prod.mk.injEq] at h
        rw [← h.2, Store_defaultEncoder]
        exact fieldLoop_keeps e w d pre tags fields [] names w2 hd hl
  | .struct _ _ fields, r, w1, hd, h => by
    rw [encode.SliceWithTag] at h
    split at h
    · simp only [Option.some.injEq, Prod.mk.injEq] at h
      rw [← h.2]; exact hd
    · split at h
      · exact absurd h (by simp)
      · rename_i names w2 hl
        simp only [Option.some.injEq, Prod.mk.injEq] at h
        rw [← h.2, Store_defaultEncoder]
        exact fieldLoop_keeps e w d pre tags fields [] names w2 hd hl
  | .ptr _ _ (.ptr _ _ _), r, w1, hd, h => by
    rw [encode.SliceWithTag] at h
    · split at h <;> simp only [Option.some.injEq, Prod.mk.injEq] at h <;>
        (rw [← h.2]; exact hd)
    · intro _ _ _ hh
      cases hh
  | .ptr _ _ (.basic _ _ _), r, w1, hd, h => by
    rw [encode.SliceWithTag] at h
    · split at h <;> simp only [Option.some.injEq, Prod.mk.injEq] at h <;>
        (rw [← h.2]; exact hd)
    · intro _ _ _ hh
      cases hh
  | .basic _ _ _, r, w1, hd, h => by
    rw [encode.SliceWithTag] at h
    split at h <;> simp only [Option.some.injEq, Prod.mk.injEq] at h <;> (rw [← h.2]; exact hd)
theorem fieldLoop_keeps (e : encode) (w : World) (d : encode) (pre : String)
    (tags : List String) :
    (fs : List StructField) → (names r : List String) → (w1 : World) →
      w.defaultEncoder = some d → encode.fieldLoop e w fs pre tags names = some (r, w1) →
      w1.defaultEncoder = some d
  | [], names, r, w1, hd, h => by
    simp only [encode.fieldLoop, Option.some.injEq, Prod.mk.injEq] at h
    rw [← h.2]; exact hd
  | .mk fname anonymous ftag ftype :: rest, names, r, w1, hd, h => by
    rw [encode.fieldLoop] at h
    split at h
    · split at h
      · exact absurd h (by simp)
      · rename_i m err w2 hs
        exact fieldLoop_keeps e w2 d pre tags rest _ r w1
          (SliceWithTag_keeps e w d pre tags ftype (m, err) w2 hd hs) h
    · split at h
      · exact absurd h (by simp)
      · split at h
        · exact fieldLoop_keeps e w d pre tags rest _ r w1 hd h
        · simp only at h
          split at h
          · exact fieldLoop_keeps e w d pre tags rest _ r w1 hd h
          · split at h
            · exact fieldLoop_keeps e w d pre tags rest _ r w1 hd h
            · split at h
              · exact absurd h (by simp)
              · exact fieldLoop_keeps e w d pre tags rest _ r w1 hd h
              · split at h
                · exact absurd h (by simp)
                · rename_i name _ _ m w2 hn
                  exact fieldLoop_keeps e w2 d pre tags rest _ r w1
                    (nestedNames_keeps w d tags ftype name m w2 hd hn) h
theorem nestedNames_keeps (w : World) (d : encode) (tags : List String) :
    (t : GoType) → (name : String) → (m : List String) → (w1 : World) →
      w.defaultEncoder = some d → nestedNames w t name tags = some (m, w1) →
      w1.defaultEncoder = some d
  | .ptr _ _ elem, name, m, w1, hd, h => by
    rw [nestedNames] at h
    exact nestedNames_keeps w d tags elem name m w1 hd h
  | .basic _ _ _, name, m, w1, hd, h => by
    simp only [nestedNames, Option.some.injEq, Prod.mk.injEq] at h
    rw [← h.2]; exact hd
  | .struct p n fields, name, m, w1, hd, h => by
    rw [nestedNames, getDefaultEncoder_of_some w d hd] at h
    simp only at h
    split at h
    · simp only [Option.some.injEq, Prod.mk.injEq] at h
      rw [← h.2]; exact hd
    · split at h
      · exact absurd h (by simp)
      · rename_i names w2 hl
        simp only [Option.some.injEq, Prod.mk.injEq] at h
        rw [← h.2, Store_defaultEncoder]
        exact fieldLoop_keeps d w d name tags fields [] names w2 hd hl
end



theorem run_keeps (w w1 : World) (d : encode) (op : DefaultOp)
    (hd : w.defaultEncoder = some d) (h : op.run w = some w1) :
    w1.defaultEncoder = some d := by
  cases op with
  | initEncoder enc =>
    simp only [DefaultOp.run, InitEncoder, hd, Option.some.injEq] at h
    rw [← h]; exact hd
  | sliceWithTag obj pre tags =>
    simp only [DefaultOp.run, SliceWithTag, getDefaultEncoder_of_some w d hd] at h
    cases hr : d.SliceWithTag w obj pre tags with
    | none => rw [hr] at h; simp at h
    | some r =>
      rw [hr] at h
      simp only [Option.map_some', Option.some.injEq] at h
      rw [← h]
      exact SliceWithTag_keeps d w d pre tags obj r.1 r.2 hd hr

theorem runOps_keeps (ops : List DefaultOp) :
    ∀ (w w1 : World) (d : encode), w.defaultEncoder = some d → runOps w ops = some w1 →
      w1.defaultEncoder = some d := by
  induction ops with
  | nil =>
    intro w w1 d hd h
    simp only [runOps, Option.some.injEq] at h
    rw [← h]; exact hd
  | cons op ops ih =>
    intro w w1 d hd h
    rw [runOps] at h
    cases hr : op.run w with
    | none => rw [hr] at h; simp at h
    | some w2 =>
      rw [hr, Option.some_bind] at h
      exact ih w2 w1 d (run_keeps w w2 d op hd hr) h

theorem run_first (w w1 : World) (op : DefaultOp) (hn : w.defaultEncoder = none)
    (h : op.run w = some w1) :
    w1.defaultEncoder =
      some { tag := "vtag", encoder := op.encoder, cache := some w.maps.length } := by
  cases op with
  | initEncoder enc =>
    simp only [DefaultOp.run, InitEncoder, hn, NewEncoder, Option.some.injEq] at h
    rw [← h]
    rfl
  | sliceWithTag obj pre tags =>
    simp only [DefaultOp.run, SliceWithTag] at h
    cases hr : (getDefaultEncoder w).1.SliceWithTag (getDefaultEncoder w).2 obj pre tags with
    | none => rw [hr] at h; simp at h
    | some r =>
      rw [hr] at h
      simp only [Option.map_some', Option.some.injEq] at h
      rw [← h]
      have hd : (getDefaultEncoder w).2.defaultEncoder =
          some { tag := "vtag", encoder := none, cache := some w.maps.length } := by
        simp [getDefaultEncoder, hn, NewEncoder]
      exact SliceWithTag_keeps _ _ _ pre tags obj r.1 r.2 hd hr

/-- C17: in a process whose default configuration is not built yet, the first operation
of a sequence of `InitEncoder` calls and uses of the package-level `SliceWithTag` builds
the default configuration (key `vtag`, the encoder of that operation, which is none for a
lazy use, and a new cache), and after any further operations the default configuration is
the same: same key, same encoder, same cache.  So `InitEncoder` after a first lazy use
does not install its encoder. -/
theorem default_built_once (w w1 w2 : World) (op : DefaultOp) (ops : List DefaultOp)
    (hn : w.defaultEncoder = none)
    (h1 : op.run w = some w1) (h2 : runOps w1 ops = some w2) :
    w1.defaultEncoder =
      some { tag := "vtag", encoder := op.encoder, cache := some w.maps.length } ∧
    w2.defaultEncoder = w1.defaultEncoder := by
  have h3 := run_first w w1 op hn h1
  exact ⟨h3, by rw [h3]; exact runOps_keeps ops w1 w2 _ h3 h2⟩

/-- C17, instance: from a fresh process, a lazy use, then `InitEncoder(CamelCaseEncodeFunc)`
and a use on another type: the default configuration built by the first use, without an
encoder, is still the one in place at the end. -/
theorem default_built_once_witness :
    (⟨[[("mainItemlist", ["A"])]], some ⟨"vtag", none, some 0⟩⟩ : World).defaultEncoder =
      some { tag := "vtag", encoder := (DefaultOp.sliceWithTag Item "" ["list"]).encoder,
             cache := some World.init.maps.length } ∧
    (⟨[[("mainOtherlist", ["x.B"]), ("mainItemlist", ["A"])]],
        some ⟨"vtag", none, some 0⟩⟩ : World).defaultEncoder =
      (⟨[[("mainItemlist", ["A"])]], some ⟨"vtag", none, some 0⟩⟩ : World).defaultEncoder :=
  default_built_once World.init ⟨[[("mainItemlist", ["A"])]], some ⟨"vtag", none, some 0⟩⟩
    ⟨[[("mainOtherlist", ["x.B"]), ("mainItemlist", ["A"])]], some ⟨"vtag", none, some 0⟩⟩
    (.sliceWithTag Item "" ["list"])
    [.initEncoder (some CamelCaseEncodeFunc), .sliceWithTag Other "x" ["list"]] rfl rfl rfl

/-! ## The claims on the encoder result, repeated calls and the encoders -/

/-- C11: on a configuration with an encoder, a visible, non-embedded field that passes
the label check and has no explicit name, and for which the encoder returns the empty
string, contributes nothing, whatever its type: the loop passes over it, and the call on
a record (or on a pointer to it) gives the same result and leaves the same state as the
call on the record without that field, so no name is appended and no descendant is
resolved. -/
theorem empty_encoder_result_excludes (e : encode) (w : World) (pre fname : String)
    (ftag : StructTag) (ftype : GoType) (tags ts : List String) (enc : EncoderFunc)
    (hvis : exported fname = true)
    (hsplit : strings.Split (StructTag.Get ftag e.tag) ',' = ts)
    (h0 : ts.headD "" = "")
    (hlabel : sliceHasIntersection tags ts = true)
    (henc : e.encoder = some enc)
    (hempty : enc ftag pre fname = some "") :
    (∀ (rest : List StructField) (names : List String),
      encode.fieldLoop e w (.mk fname false ftag ftype :: rest) pre tags names =
        encode.fieldLoop e w rest pre tags names) ∧
    (∀ (p n : String) (fs1 fs2 : List StructField),
      e.SliceWithTag w (.struct p n (fs1 ++ .mk fname false ftag ftype :: fs2)) pre tags =
        e.SliceWithTag w (.struct p n (fs1 ++ fs2)) pre tags) ∧
    (∀ (q m p n : String) (fs1 fs2 : List StructField),
      e.SliceWithTag w (.ptr q m (.struct p n (fs1 ++ .mk fname false ftag ftype :: fs2)))
          pre tags =
        e.SliceWithTag w (.ptr q m (.struct p n (fs1 ++ fs2))) pre tags) := by
  have hmid : ∀ (fs1 fs2 : List StructField),
      encode.fieldLoop e w (fs1 ++ .mk fname false ftag ftype :: fs2) pre tags [] =
        encode.fieldLoop e w (fs1 ++ fs2) pre tags [] := by
    intro fs1 fs2
    rw [fieldLoop_append, fieldLoop_append]
    congr 1
    funext r
    exact fieldLoop_omitted e r.2 pre fname ftag ftype tags ts enc fs2 r.1 hvis hsplit h0
      hlabel henc hempty
  refine ⟨?_, ?_, ?_⟩
  · intro rest names
    exact fieldLoop_omitted e w pre fname ftag ftype tags ts enc rest names hvis hsplit h0
      hlabel henc hempty
  · intro p n fs1 fs2
    simp only [encode.SliceWithTag, encode.cacheKey, GoType.PkgPath, GoType.Name]
    rw [hmid fs1 fs2]
  · intro q m p n fs1 fs2
    simp only [encode.SliceWithTag, encode.cacheKey, GoType.PkgPath, GoType.Name]
    rw [hmid fs1 fs2]

/-- C11, instance: with the encoder `skipX`, a record with the field `XHidden Item` before
its field `A` resolves as the record with the field `A` alone. -/
theorem empty_encoder_result_excludes_witness :
    (NewEncoder "" (some skipX) false World.init).1.SliceWithTag
        (NewEncoder "" (some skipX) false World.init).2
        (.struct "main" "T" ([] ++ .mk "XHidden" false [("vtag", ",list")] Item ::
          [.mk "A" false [("vtag", ",list")] goString])) "" ["list"] =
      (NewEncoder "" (some skipX) false World.init).1.SliceWithTag
        (NewEncoder "" (some skipX) false World.init).2
        (.struct "main" "T" ([] ++ [.mk "A" false [("vtag", ",list")] goString])) ""
        ["list"] :=
  (empty_encoder_result_excludes (NewEncoder "" (some skipX) false World.init).1
    (NewEncoder "" (some skipX) false World.init).2 "" "XHidden" [("vtag", ",list")] Item
    ["list"] ["", "list"] skipX (by decide) (by decide) (by decide) (by decide) rfl rfl).2.1
    "main" "T" [] [.mk "A" false [("vtag", ",list")] goString]

/-- C12, at the failing input: on a new cached configuration the call
`SliceWithTag(&Holder{}, "", "")` returns `F` the first time and `F, F` the second time:
the embedded `a.BC`, which is no record, fails in the first call and is served in the
second from the entry that the embedded `aB.C` stored under the same key. -/
theorem second_call_differs :
    ((NewEncoder "" none true World.init).1.SliceWithTag
        (NewEncoder "" none true World.init).2 (.ptr "" "" Holder) "" [""]).map (fun r => r.1)
      = some (["F"], none) ∧
    (((NewEncoder "" none true World.init).1.SliceWithTag
        (NewEncoder "" none true World.init).2 (.ptr "" "" Holder) "" [""]).bind
      (fun r => (NewEncoder "" none true World.init).1.SliceWithTag r.2 (.ptr "" "" Holder) ""
        [""])).map (fun r => r.1) = some (["F", "F"], none) := by
  constructor <;> rfl

/-- C15, as stated, fails: on the empty raw name `CamelCaseEncodeFunc` panics (index out of
range at `name[0]`), under an empty prefix and under a non-empty one. -/
theorem camel_panics_on_empty_name :
    CamelCaseEncodeFunc [] "" "" = none ∧ CamelCaseEncodeFunc [] "p" "" = none := by
  constructor <;> rfl

/-- C15, amended: for every annotation, every prefix and every non-empty raw name,
`CamelCaseEncodeFunc` returns the raw name with its first byte lower-cased when that byte
is an upper-case ASCII letter, and the raw name unchanged otherwise, preceded by the
prefix and `.` when the prefix is not empty and by nothing when it is. -/
theorem camel_encoder (field : StructTag) (pre name : String) (c : Char) (cs : List Char)
    (hname : name = ⟨c :: cs⟩) :
    CamelCaseEncodeFunc field pre name =
      some (if pre = "" then ⟨lowerByte c :: cs⟩ else pre ++ "." ++ ⟨lowerByte c :: cs⟩) ∧
    (isUpperByte c = false →
      CamelCaseEncodeFunc field pre name =
        some (if pre = "" then name else pre ++ "." ++ name)) := by
  have hcat : (⟨[lowerByte c]⟩ : String) ++ ⟨cs⟩ = ⟨lowerByte c :: cs⟩ := by
    apply String.ext
    simp [String.data_append]
  have hmain : CamelCaseEncodeFunc field pre name =
      some (if pre = "" then ⟨lowerByte c :: cs⟩ else pre ++ "." ++ ⟨lowerByte c :: cs⟩) := by
    subst hname
    by_cases hu : isUpperByte c = true
    · have hl : lowerByte c = Char.ofNat (c.toNat - 'A'.toNat + 'a'.toNat) := by
        unfold isUpperByte at hu
        simp only [lowerByte, hu, if_true]
      have hu2 : ('A'.toNat ≤ c.toNat && c.toNat ≤ 'Z'.toNat) = true := hu
      simp only [CamelCaseEncodeFunc, hu2, if_true, ← hl, hcat]
      by_cases hp : pre = "" <;> simp [hp]
    · have hu1 : isUpperByte c = false := by simpa using hu
      have hu2 : ('A'.toNat ≤ c.toNat && c.toNat ≤ 'Z'.toNat) = false := hu1
      have hl : lowerByte c = c := by
        simp only [lowerByte, hu2, Bool.false_eq_true, if_false]
      simp only [CamelCaseEncodeFunc, hu2, Bool.false_eq_true, if_false, hl]
      by_cases hp : pre = "" <;> simp [hp]
  refine ⟨hmain, ?_⟩
  intro hu
  have hu2 : ('A'.toNat ≤ c.toNat && c.toNat ≤ 'Z'.toNat) = false := hu
  have hl : lowerByte c = c := by
    simp only [lowerByte, hu2, Bool.false_eq_true, if_false]
  rw [hmain, hl, hname]

/-- C15, instance: the name `HelloWorld` under the prefix `ext`. -/
theorem camel_encoder_witness :
    CamelCaseEncodeFunc [] "ext" "HelloWorld" =
      some (if "ext" = "" then ⟨lowerByte 'H' :: "elloWorld".data⟩
        else "ext" ++ "." ++ ⟨lowerByte 'H' :: "elloWorld".data⟩) :=
  (camel_encoder [] "ext" "HelloWorld" 'H' "elloWorld".data (by decide)).1

/-- The byte-wise maps meet the assumption made of the library. -/
theorem asciiCase_onASCII : asciiCase.onASCII :=
  fun _ _ => ⟨rfl, rfl⟩

/-- C16: for every annotation, prefix and raw name, and for every pair of library functions
that behaves as Go's on ASCII strings, `UpperEncodeFunc`, `LowerEncodeFunc` and
`UnderScoreCaseEncodeFunc` return `t(name)` under an empty prefix and the prefix, `.` and
`t(name)` otherwise, with `t` being `strings.ToUpper`, `strings.ToLower` and
`Snake2UnderScoreCase`; the prefix is left as it is, also where it holds letters; the
annotation has no influence on the result; and on a raw name of ASCII bytes
`t(name)` is the name with each byte `a`-`z` made upper case, respectively each byte
`A`-`Z` made lower case. -/
theorem case_encoders (lib : StringsCase) (hlib : lib.onASCII) (field : StructTag)
    (pre name : String) :
    UpperEncodeFunc lib field pre name =
      some (if pre = "" then lib.ToUpper name else pre ++ "." ++ lib.ToUpper name) ∧
    LowerEncodeFunc lib field pre name =
      some (if pre = "" then lib.ToLower name else pre ++ "." ++ lib.ToLower name) ∧
    UnderScoreCaseEncodeFunc field pre name =
      some (if pre = "" then Snake2UnderScoreCase name
        else pre ++ "." ++ Snake2UnderScoreCase name) ∧
    (∀ field2 : StructTag,
      UpperEncodeFunc lib field2 pre name = UpperEncodeFunc lib field pre name ∧
      LowerEncodeFunc lib field2 pre name = LowerEncodeFunc lib field pre name ∧
      UnderScoreCaseEncodeFunc field2 pre name = UnderScoreCaseEncodeFunc field pre name) ∧
    (isASCII name = true →
      UpperEncodeFunc lib field pre name =
        some (if pre = "" then String.mk (name.data.map upperByte)
          else pre ++ "." ++ String.mk (name.data.map upperByte)) ∧
      LowerEncodeFunc lib field pre name =
        some (if pre = "" then String.mk (name.data.map lowerByte)
          else pre ++ "." ++ String.mk (name.data.map lowerByte))) := by
  have h1 : UpperEncodeFunc lib field pre name =
      some (if pre = "" then lib.ToUpper name else pre ++ "." ++ lib.ToUpper name) := by
    by_cases hp : pre = "" <;> simp [UpperEncodeFunc, hp]
  have h2 : LowerEncodeFunc lib field pre name =
      some (if pre = "" then lib.ToLower name else pre ++ "." ++ lib.ToLower name) := by
    by_cases hp : pre = "" <;> simp [LowerEncodeFunc, hp]
  have h3 : UnderScoreCaseEncodeFunc field pre name =
      some (if pre = "" then Snake2UnderScoreCase name
        else pre ++ "." ++ Snake2UnderScoreCase name) := by
    by_cases hp : pre = "" <;> simp [UnderScoreCaseEncodeFunc, hp]
  refine ⟨h1, h2, h3, fun _ => ⟨rfl, rfl, rfl⟩, ?_⟩
  intro hascii
  rw [h1, h2, (hlib name hascii).1, (hlib name hascii).2]
  exact ⟨rfl, rfl⟩

/-- C16, instance: the byte-wise library functions, the prefix `ext` and the name
`HelloWorld` give `ext.HELLOWORLD`, `ext.helloworld` and `ext.hello_world`. -/
theorem case_encoders_witness :
    UpperEncodeFunc asciiCase [] "ext" "HelloWorld" = some "ext.HELLOWORLD" ∧
    LowerEncodeFunc asciiCase [] "ext" "HelloWorld" = some "ext.helloworld" ∧
    UnderScoreCaseEncodeFunc [] "ext" "HelloWorld" = some "ext.hello_world" :=
  have h := case_encoders asciiCase asciiCase_onASCII [] "ext" "HelloWorld"
  ⟨(h.2.2.2.2 (by decide)).1.trans (by decide), (h.2.2.2.2 (by decide)).2.trans (by decide),
    h.2.2.1.trans (by decide)⟩

end vtag
